import Mathlib

/-!
# go-intensive-expert: the Shape area reporter and the generic value printer

A shallow embedding of the two example programs

* `01-interfaces-generics-pointers/exemples/interface00.go`
  (`Shape`, `Circle`, `Rectangle`, `Area`, `printArea`, `main`), and
* `02-go-modules-and-workspaces/exemples/exemple00.go`
  (`PrintValue`, `main`).

Go's `float64` is embedded bit-exactly as an IEEE 754 binary64 value with all
arithmetic done on natural numbers.  Standard output is an explicit state: a
program is a function from the text written so far to the text written after
it ran (for the Generic program together with the memory that a method of a
printed value can change).  The calls into Go's `fmt` package (`Printf` with `%.2f`, `Println`)
are embedded by the functions `formatF`, `formatG`, `fmtInteger` below, which follow
the behaviour of `strconv.FormatFloat` and `fmt`'s integer formatting.
-/

namespace GoIntensive

/-! ## float64 -/

/-- An IEEE 754 binary64 value, Go's `float64`.  `num s e f` is the finite
value with sign bit `s`, biased exponent field `e` (`0` for zero and the
subnormals) and fraction field `f`; `nan s` is a NaN with sign bit `s` (the
payload of a NaN, which no operation of the programs reads, is left out). -/
inductive Float64 where
  | num (sign : Bool) (expo : Fin 2047) (frac : Fin (2 ^ 52))
  | inf (sign : Bool)
  | nan (sign : Bool)
deriving DecidableEq

/-- The magnitude of a finite value counted in units of `2^-1074` (the
smallest subnormal): `frac` for a subnormal, `(2^52 + frac) * 2^(expo - 1)`
for a normal number. -/
def sig (expo frac : Nat) : Nat :=
  if expo = 0 then frac else (2 ^ 52 + frac) * 2 ^ (expo - 1)

/-- The loop of `bitLen`: one binary digit is counted at a time below `2^64`,
sixty-four at a time above. -/
def bitLenAux : Nat → Nat → Nat
  | 0, _ => 0
  | fuel + 1, n =>
    if n = 0 then 0
    else if n < 2 ^ 64 then bitLenAux fuel (n / 2) + 1
    else bitLenAux fuel (n / 2 ^ 64) + 64

/-- The number of binary digits of `n` (`0` for `0`). -/
def bitLen (n : Nat) : Nat :=
  bitLenAux n n

/-- The significand of `n / 2^k` rounded to nearest, a tie going to the even
neighbour. -/
def roundShift (n k : Nat) : Nat :=
  let q := n / 2 ^ k
  let r := n % 2 ^ k
  if 2 ^ k < 2 * r ∨ (2 * r = 2 ^ k ∧ q % 2 = 1) then q + 1 else q

/-- Pack the encoding `enc = expo * 2^52 + frac`; an exponent field of 2047 or
more is an overflow to infinity. -/
def pack (s : Bool) (enc : Nat) : Float64 :=
  if h : enc / 2 ^ 52 < 2047 then
    .num s ⟨enc / 2 ^ 52, h⟩ ⟨enc % 2 ^ 52, Nat.mod_lt _ (Nat.pos_pow_of_pos 52 (by decide))⟩
  else
    .inf s

/-- The binary64 value nearest to `± n * 2^-scale` (round to nearest, ties to
even), for `scale ≥ 1074`.  The `k` lowest bits of `n` are rounded away, where
`k` leaves at most 53 significant bits and a unit no smaller than `2^-1074`;
adding the rounded significand to the exponent field carries a significand of
`2^53` (or a subnormal rounded up to `2^52`) into the next exponent. -/
def roundPack (s : Bool) (n scale : Nat) : Float64 :=
  let k := max (bitLen n - 53) (scale - 1074)
  pack s ((k - (scale - 1074)) * 2 ^ 52 + roundShift n k)

/-- Conversion of the untyped constant `p / q` (with `q ≠ 0`) to `float64`: the
exact quotient is rounded once, to nearest even.  The quotient is cut at `2^-2148`
with a sticky bit for the remainder, which lies below every rounding
position. -/
def constFloat64 (p q : Nat) : Float64 :=
  roundPack false (2 * (p * 2 ^ 2148 / q) + (if p * 2 ^ 2148 % q = 0 then 0 else 1)) 2149

namespace Float64

/-- Unary minus: the sign bit is flipped, also that of a NaN. -/
def neg : Float64 → Float64
  | num s e f => num (!s) e f
  | inf s => inf (!s)
  | nan s => nan (!s)

/-- The IEEE 754 product `x * y`, rounded to nearest even.  A NaN operand is
the result, with its sign bit (the first operand when both are NaNs); the
invalid product of a zero and an infinity is the default NaN, whose sign bit is
set (as on amd64). -/
def mul : Float64 → Float64 → Float64
  | num s e f, num t g h => roundPack (xor s t) (sig e f * sig g h) 2148
  | num s e f, inf t => if sig e f = 0 then nan true else inf (xor s t)
  | inf s, num t g h => if sig g h = 0 then nan true else inf (xor s t)
  | inf s, inf t => inf (xor s t)
  | num _ _ _, nan t => nan t
  | inf _, nan t => nan t
  | nan s, _ => nan s

/-- The position of a value that is not a NaN in the order of `float64`: the
sign-magnitude reading of its encoding (both zeros are at `0`). -/
def key : Float64 → Int
  | num s e f => if s then -((e.val * 2 ^ 52 + f.val : Nat) : Int) else ((e.val * 2 ^ 52 + f.val : Nat) : Int)
  | inf s => if s then -((2047 * 2 ^ 52 : Nat) : Int) else ((2047 * 2 ^ 52 : Nat) : Int)
  | nan _ => 0

/-- Whether the value is a NaN. -/
def isNaN : Float64 → Bool
  | nan _ => true
  | _ => false

/-- Whether the value is finite (neither an infinity nor a NaN). -/
def isFinite : Float64 → Bool
  | num _ _ _ => true
  | _ => false

/-- Go's `x < y`: false when either side is a NaN. -/
def lt (x y : Float64) : Bool :=
  !x.isNaN && !y.isNaN && decide (x.key < y.key)

/-- Go's `x <= y`: false when either side is a NaN. -/
def le (x y : Float64) : Bool :=
  !x.isNaN && !y.isNaN && decide (x.key ≤ y.key)

/-- Go's `x == y`: false when either side is a NaN, true for `-0 == +0`. -/
def eq (x y : Float64) : Bool :=
  !x.isNaN && !y.isNaN && decide (x.key = y.key)

/-- The exact value of a finite `float64` as a rational number (`0` for the
infinities and NaN, which have none). -/
def toRat : Float64 → ℚ
  | num s e f => (if s then -1 else 1) * (sig e.val f.val : ℚ) / 2 ^ 1074
  | _ => 0

/-- The value `+0`. -/
def zero : Float64 := num false ⟨0, by decide⟩ ⟨0, by decide⟩

/-- The sign bit (`math.Signbit`). -/
def signBit : Float64 → Bool
  | num s _ _ => s
  | inf s => s
  | nan s => s

end Float64

/-! ## interface00.go -/

/-- The struct `Circle`. -/
structure Circle where
  Radius : Float64
deriving DecidableEq

/-- The struct `Rectangle`. -/
structure Rectangle where
  Width : Float64
  Height : Float64
deriving DecidableEq

/-- The constant `3.14159` of `Circle.Area`, converted to `float64`. -/
def piApprox : Float64 := constFloat64 314159 100000

/-- The method `func (c Circle) Area() float64`:
`return 3.14159 * c.Radius * c.Radius`. -/
def Circle.Area (c : Circle) : Float64 :=
  (piApprox.mul c.Radius).mul c.Radius

/-- The method `func (r Rectangle) Area() float64`:
`return r.Width * r.Height`. -/
def Rectangle.Area (r : Rectangle) : Float64 :=
  r.Width.mul r.Height

/-- The interface `Shape`: the values of the two types of the program that have
the method `Area() float64`. -/
inductive Shape where
  | circle (c : Circle)
  | rectangle (r : Rectangle)
deriving DecidableEq

/-- The dynamic dispatch of `s.Area()`. -/
def Shape.Area : Shape → Float64
  | .circle c => c.Area
  | .rectangle r => r.Area

/-! ## Formatting: the parts of Go's `strconv` and `fmt` the programs call -/

/-- The byte `'0' + d` of a decimal digit. -/
def digitByte (d : Nat) : Char :=
  Char.ofNat (48 + d)

/-- The digit loop of base-10 formatting, writing right to left in front of
`acc`: `for u >= 10 { next := u / 10; buf[i] = '0' + u - next*10; u = next }`
and then the leading digit `buf[i] = '0' + u`.  `fuel` bounds the number of
digits written. -/
def appendDigits : Nat → Nat → List Char → List Char
  | 0, _, acc => acc
  | fuel + 1, u, acc =>
    if u < 10 then digitByte u :: acc
    else appendDigits fuel (u / 10) (digitByte (u % 10) :: acc)

/-- The decimal digits of a natural number of any size. -/
def decimal (n : Nat) : List Char :=
  appendDigits (n + 1) n []

/-- The `fmtInteger` of package `fmt` for base 10 and a signed 64-bit argument,
with no flags: the argument is passed as `uint64(v)`, it is negative when
`int64(u) < 0` and then `u = -u`; at most 20 digits are written and a `-` goes
in front of a negative number. -/
def fmtInteger (v : Int) : String :=
  let u := (v % 2 ^ 64).toNat
  let negative := decide (2 ^ 63 ≤ u)
  let u := if negative then (2 ^ 64 - u) % 2 ^ 64 else u
  let ds := appendDigits 20 u []
  String.mk (if negative then '-' :: ds else ds)

/-- The last `prec` decimal digits of `n`, with leading zeros. -/
def fracDigits : Nat → Nat → List Char → List Char
  | 0, _, acc => acc
  | prec + 1, n, acc => fracDigits prec (n / 10) (digitByte (n % 10) :: acc)

/-- The text of a sign bit: `-` when it is set, nothing otherwise. -/
def signText (s : Bool) : String :=
  if s then "-" else ""

/-- The `%.<prec>f` of package `fmt` (`strconv.FormatFloat(x, 'f', prec, 64)`):
the exact binary value is written in decimal and rounded to `prec` digits
after the point, a tie going to the even digit; the sign bit gives the `-`,
also for a value that rounds to zero; a NaN is written `NaN` whatever its sign
bit.  `n` below is the value in units of `10^-prec`. -/
def formatF (prec : Nat) : Float64 → String
  | .nan _ => "NaN"
  | .inf s => if s then "-Inf" else "+Inf"
  | .num s e f =>
    let n := roundShift (sig e.val f.val * 10 ^ prec) 1074
    let whole := decimal (n / 10 ^ prec)
    let frac := fracDigits prec (n % 10 ^ prec) []
    signText s ++ String.mk (if prec = 0 then whole else whole ++ '.' :: frac)

/-- The digit search of the shortest formatting (`%v`, precision `-1`), for a
value `v` and the bounds `lo < v < hi` of the interval that rounds to it, all
three counted in units of `2^-1076`.  The decimal positions are visited from
the top (`p` is the exponent of ten of the position); at each one the value cut
at that position is `d` units of `10^p`, and the search stops at the first
position where `d`, `d + 1` or both lie in the interval (a bound itself is
allowed when `inclusive`); when both do, the nearer one is taken, a tie going
to the even digit.  The result is the digit string as a number with the
position of its last digit. -/
def shortestAux (v lo hi : Nat) (inclusive : Bool) : Nat → Int → Nat × Int
  | 0, p => (0, p)
  | fuel + 1, p =>
    let unit := 2 ^ 1076 * 10 ^ p.toNat
    let m := 10 ^ (-p).toNat
    let d := v * m / unit
    let okdown := decide (lo * m < d * unit) || (inclusive && decide (lo * m = d * unit))
    let okup := decide ((d + 1) * unit < hi * m) || (inclusive && decide ((d + 1) * unit = hi * m))
    let r := v * m - d * unit
    if okdown && okup then
      (if unit < 2 * r ∨ (2 * r = unit ∧ d % 2 = 1) then d + 1 else d, p)
    else if okdown then (d, p)
    else if okup then (d + 1, p)
    else shortestAux v lo hi inclusive fuel (p - 1)

/-- The shortest decimal that reads back as the finite nonzero value with the
fields `e`, `f` (`roundShortest` of `strconv`).  The interval ends halfway to
the two neighbours; the neighbour below is half as far when the significand is
a power of two above the smallest exponent; the ends belong to the interval
when the significand is even.  The search starts above the first digit of the
largest `float64` and needs no more positions than there are down to
`10^-1076`. -/
def shortest (e f : Nat) : Nat × Int :=
  let ulp := 2 ^ (e - 1)
  let v := 4 * sig e f
  let lo := if f = 0 ∧ 2 ≤ e then v - ulp else v - 2 * ulp
  shortestAux v lo (v + 2 * ulp) (f % 2 = 0) 1400 309

/-- The exponent of `%e`: a sign and at least two digits. -/
def expDigits (x : Int) : List Char :=
  let n := x.natAbs
  (if x < 0 then '-' else '+') ::
    (if n < 10 then ['0', digitByte n]
     else if n < 100 then [digitByte (n / 10), digitByte (n % 10)]
     else [digitByte (n / 100), digitByte (n / 10 % 10), digitByte (n % 10)])

/-- The `%e` layout of the digits `ds` with decimal exponent `x`:
`d.ddde±xx`, the point left out when there is one digit. -/
def layoutE (ds : List Char) (x : Int) : List Char :=
  match ds with
  | [] => '0' :: 'e' :: expDigits 0
  | [c] => c :: 'e' :: expDigits x
  | c :: cs => c :: '.' :: (cs ++ 'e' :: expDigits x)

/-- The `%f` layout of the digits `ds` with the decimal point after `dp` of
them, with as many digits after the point as there are: the integer part is
the first `dp` digits, padded with zeros, or `0`; the fraction is the digits
from position `dp` on, after `-dp` zeros, the point left out when it is
empty. -/
def layoutF (ds : List Char) (dp : Int) : List Char :=
  let whole :=
    if 0 < dp then ds.take dp.toNat ++ List.replicate (dp.toNat - ds.length) '0' else ['0']
  let frac := List.replicate (-dp).toNat '0' ++ ds.drop dp.toNat
  if (ds.length : Int) ≤ dp then whole else whole ++ '.' :: frac

/-- The `%v` of package `fmt` for a `float64`
(`strconv.FormatFloat(x, 'g', -1, 64)`): the shortest digits that read back as
`x`, laid out as `%e` when the decimal exponent is below `-4` or at least `6`
and as `%f` otherwise. -/
def formatG : Float64 → String
  | .nan _ => "NaN"
  | .inf s => if s then "-Inf" else "+Inf"
  | .num s e f =>
    if sig e.val f.val = 0 then signText s ++ "0"
    else
      let dp := shortest e.val f.val
      let ds := decimal dp.1
      let x : Int := ds.length + dp.2 - 1
      signText s ++ String.mk (if x < -4 ∨ 6 ≤ x then layoutE ds x else layoutF ds (x + 1))

/-- The function `func printArea(s Shape)`:
`fmt.Printf("Area: %.2f\n", s.Area())`, appending to the text `out` already on
standard output. -/
def printArea (s : Shape) (out : String) : String :=
  out ++ ("Area: " ++ formatF 2 s.Area ++ "\n")

/-- The `main` of interface00.go, started on the standard output `out`. -/
def shapeMain (out : String) : String :=
  let c : Circle := { Radius := constFloat64 10 1 }
  let r : Rectangle := { Width := constFloat64 5 1, Height := constFloat64 6 1 }
  printArea (.rectangle r) (printArea (.circle c) out)

/-! ## exemple00.go -/

/-- The state of the Generic program: the text on standard output and the
memory `mem` of the program, of any type `μ`, which a method of a printed value
can read and write. -/
structure World (μ : Type) where
  out : String
  mem : μ
deriving DecidableEq

/-- The values `PrintValue` is called with: the type parameter `T` of
`PrintValue[T any]` ranges over the three types the program prints, `string`,
`int` (64 bits) and `float64`, and over the types with a method
`String() string` (a `fmt.Stringer`), given by that method as a function of
the memory. -/
inductive Value (μ : Type) where
  | str (s : String)
  | int (n : Int)
  | float (x : Float64)
  | stringer (String : μ → String × μ)

/-- Whether the type of the value has a method that `fmt` calls. -/
def Value.hasMethod {μ : Type} : Value μ → Bool
  | .stringer _ => true
  | _ => false

/-- The operand formatting of `fmt.Println` (the verb `%v`) in the memory `m`:
the text of the operand and the memory afterwards.  A `string`, an `int` and a
`float64` are formatted without a look at the memory; for a `Stringer` the
text is what its method `String` returns. -/
def formatV {μ : Type} : Value μ → μ → String × μ
  | .str s, m => (s, m)
  | .int n, m => (fmtInteger n, m)
  | .float x, m => (formatG x, m)
  | .stringer f, m => f m

/-- The function `func PrintValue[T any](value T)`: `fmt.Println(value)`,
appending the text of the value and a newline to standard output. -/
def PrintValue {μ : Type} (value : Value μ) (w : World μ) : World μ :=
  { out := w.out ++ ((formatV value w.mem).1 ++ "\n"), mem := (formatV value w.mem).2 }

/-- The `main` of exemple00.go, started in the state `w`. -/
def genericMain {μ : Type} (w : World μ) : World μ :=
  PrintValue (.float (constFloat64 11 10)) (PrintValue (.int 55) (PrintValue (.str "String") w))

/-- A value with a method `String` that keeps a count in memory: it returns the
decimal digits of the count and adds one to it, as
`func (c *Counter) String() string { c.n++; return strconv.Itoa(c.n - 1) }`
does. -/
def counter : Value Nat :=
  .stringer (fun n => (String.mk (decimal n), n + 1))

/-! ## Specification-side definitions -/

/-- The base-10 numeral of `n` as text: its decimal digits, most significant
first, with no leading zero, and `0` for zero. -/
def numeral (n : Nat) : List Char :=
  if n = 0 then ['0'] else (Nat.digits 10 n).reverse.map digitByte

/-! ## Lemmas on the arithmetic of `float64` -/

/-! ### The bit length and values that need no rounding -/

theorem bitLenAux_spec (fuel : Nat) : ∀ n, n ≤ fuel →
    n < 2 ^ bitLenAux fuel n ∧ (n ≠ 0 → 2 ^ bitLenAux fuel n ≤ 2 * n) := by
  induction fuel with
  | zero =>
    intro n hn
    have h0 : n = 0 := by omega
    subst h0
    simp [bitLenAux]
  | succ fuel ih =>
    intro n hn
    unfold bitLenAux
    by_cases h0 : n = 0
    · subst h0; simp
    · rw [if_neg h0]
      by_cases h64 : n < 2 ^ 64
      · rw [if_pos h64]
        obtain ⟨h1, h2⟩ := ih (n / 2) (by omega)
        refine ⟨?_, fun _ => ?_⟩
        · rw [pow_succ]; omega
        · by_cases hh : n / 2 = 0
          · have hn1 : n = 1 := by omega
            subst hn1
            have : bitLenAux fuel (1 / 2) = 0 := by
              have : (1 : Nat) / 2 = 0 := by norm_num
              rw [this]; cases fuel <;> simp [bitLenAux]
            rw [this]; norm_num
          · have := h2 hh
            rw [pow_succ]; omega
      · rw [if_neg h64]
        have hpos : 0 < n / 2 ^ 64 := Nat.div_pos (by omega) (by positivity)
        obtain ⟨h1, h2⟩ := ih (n / 2 ^ 64) (by
          have : n / 2 ^ 64 < n := Nat.div_lt_self (by omega) (by norm_num)
          omega)
        have h3 := h2 (by omega)
        have hdm := Nat.div_add_mod n (2 ^ 64)
        have hml := Nat.mod_lt n (show 0 < 2 ^ 64 by positivity)
        generalize bitLenAux fuel (n / 2 ^ 64) = b at h1 h3
        generalize n / 2 ^ 64 = q at h1 h3 hdm hpos
        generalize n % 2 ^ 64 = r at hdm hml
        refine ⟨?_, fun _ => ?_⟩
        · rw [pow_add]
          generalize (2 : Nat) ^ b = B at h1 h3
          have : 2 ^ 64 * (q + 1) ≤ 2 ^ 64 * B := Nat.mul_le_mul_left _ h1
          rw [Nat.mul_comm B]
          omega
        · rw [pow_add]
          generalize (2 : Nat) ^ b = B at h1 h3
          have : 2 ^ 64 * B ≤ 2 ^ 64 * (2 * q) := Nat.mul_le_mul_left _ h3
          rw [Nat.mul_comm B]
          omega

theorem bitLen_lt (n : Nat) : n < 2 ^ bitLen n := (bitLenAux_spec n n le_rfl).1

theorem bitLen_le (n : Nat) (h : n ≠ 0) : 2 ^ bitLen n ≤ 2 * n := (bitLenAux_spec n n le_rfl).2 h

/-- The bit length is determined by the binade. -/
theorem bitLen_eq (n b : Nat) (h1 : 2 ^ b ≤ 2 * n) (h2 : n < 2 ^ b) (h0 : n ≠ 0) : bitLen n = b := by
  have a1 := bitLen_lt n
  have a2 := bitLen_le n h0
  rcases Nat.lt_trichotomy (bitLen n) b with h | h | h
  · exfalso
    have : 2 ^ (bitLen n + 1) ≤ 2 ^ b := Nat.pow_le_pow_right (by norm_num) h
    rw [pow_succ] at this
    omega
  · exact h
  · exfalso
    have : 2 ^ (b + 1) ≤ 2 ^ bitLen n := Nat.pow_le_pow_right (by norm_num) h
    rw [pow_succ] at this
    omega

theorem bitLen_zero : bitLen 0 = 0 := rfl

theorem roundShift_of_dvd (n k : Nat) (h : 2 ^ k ∣ n) : roundShift n k = n / 2 ^ k := by
  have hm : n % 2 ^ k = 0 := Nat.mod_eq_zero_of_dvd h
  have hp : 0 < 2 ^ k := by positivity
  unfold roundShift
  simp only [hm]
  rw [if_neg]
  omega

theorem pack_eq (s : Bool) (e f : Nat) (he : e < 2047) (hf : f < 2 ^ 52) :
    pack s (e * 2 ^ 52 + f) = .num s ⟨e, he⟩ ⟨f, hf⟩ := by
  have h1 : (e * 2 ^ 52 + f) / 2 ^ 52 = e := by
    rw [Nat.add_comm, Nat.add_mul_div_right _ _ (by positivity), Nat.div_eq_of_lt hf, Nat.zero_add]
  have h2 : (e * 2 ^ 52 + f) % 2 ^ 52 = f := by
    rw [Nat.add_comm, Nat.add_mul_mod_self_right, Nat.mod_eq_of_lt hf]
  unfold pack
  rw [dif_pos (by rw [h1]; exact he)]
  congr 1
  · exact Fin.ext h1
  · exact Fin.ext h2

/-! ### Signs -/

/-- Rounding a value that a `float64` has gives that `float64`. -/
theorem roundPack_sig (s : Bool) (e f c : Nat) (he : e < 2047) (hf : f < 2 ^ 52) :
    roundPack s (sig e f * 2 ^ c) (1074 + c) = .num s ⟨e, he⟩ ⟨f, hf⟩ := by
  have hc : 1074 + c - 1074 = c := by omega
  unfold roundPack
  simp only [hc]
  by_cases h0 : e = 0
  · subst h0
    have hs : sig 0 f = f := by simp [sig]
    rw [hs]
    have hk : max (bitLen (f * 2 ^ c) - 53) c = c := by
      by_cases hf0 : f = 0
      · subst hf0; simp [bitLen_zero]
      · have hb : bitLen (f * 2 ^ c) ≤ 52 + c := by
          by_contra hcon
          push_neg at hcon
          have hp0 : f * 2 ^ c ≠ 0 :=
            Nat.mul_ne_zero hf0 (Nat.pos_iff_ne_zero.mp (Nat.pow_pos (by norm_num)))
          have h1 := bitLen_le (f * 2 ^ c) hp0
          have h2 : 2 ^ (52 + c + 1) ≤ 2 ^ bitLen (f * 2 ^ c) := Nat.pow_le_pow_right (by norm_num) hcon
          have h3 : f * 2 ^ c < 2 ^ 52 * 2 ^ c := Nat.mul_lt_mul_of_pos_right hf (by positivity)
          rw [pow_succ, pow_add] at h2
          omega
        omega
    rw [hk, roundShift_of_dvd _ _ (Dvd.intro_left _ rfl), Nat.mul_div_cancel _ (by positivity)]
    simpa using pack_eq s 0 f he hf
  · have hs : sig e f = (2 ^ 52 + f) * 2 ^ (e - 1) := by simp [sig, h0]
    rw [hs]
    have hn : (2 ^ 52 + f) * 2 ^ (e - 1) * 2 ^ c = (2 ^ 52 + f) * 2 ^ (e - 1 + c) := by
      rw [pow_add, Nat.mul_assoc]
    rw [hn]
    have hb : bitLen ((2 ^ 52 + f) * 2 ^ (e - 1 + c)) = 53 + (e - 1 + c) := by
      apply bitLen_eq
      · rw [pow_add 2 53]
        have : 2 ^ 53 ≤ 2 * (2 ^ 52 + f) := by omega
        calc 2 ^ 53 * 2 ^ (e - 1 + c) ≤ 2 * (2 ^ 52 + f) * 2 ^ (e - 1 + c) :=
              Nat.mul_le_mul_right _ this
          _ = 2 * ((2 ^ 52 + f) * 2 ^ (e - 1 + c)) := by rw [Nat.mul_assoc]
      · rw [pow_add 2 53]
        have h53 : 2 ^ 52 + f < 2 ^ 53 := by omega
        have hp : 0 < 2 ^ (e - 1 + c) := Nat.pow_pos (by norm_num)
        exact Nat.mul_lt_mul_of_pos_right h53 hp
      · exact Nat.mul_ne_zero (by omega) (Nat.pos_iff_ne_zero.mp (Nat.pow_pos (by norm_num)))
    have hk : max (bitLen ((2 ^ 52 + f) * 2 ^ (e - 1 + c)) - 53) c = e - 1 + c := by
      rw [hb]; omega
    rw [hk, roundShift_of_dvd _ _ (Dvd.intro_left _ rfl), Nat.mul_div_cancel _ (by positivity)]
    have he2 : (e - 1 + c - c) * 2 ^ 52 + (2 ^ 52 + f) = e * 2 ^ 52 + f := by
      have : e - 1 + c - c = e - 1 := by omega
      rw [this]
      have : e = (e - 1) + 1 := by omega
      conv_rhs => rw [this]
      ring
    rw [he2]
    exact pack_eq s e f he hf

theorem pack_cases (s : Bool) (enc : Nat) :
    (∃ e f, pack s enc = .num s e f) ∨ pack s enc = .inf s := by
  unfold pack
  split
  · exact Or.inl ⟨_, _, rfl⟩
  · exact Or.inr rfl

theorem pack_neg (s : Bool) (enc : Nat) : pack (!s) enc = (pack s enc).neg := by
  unfold pack
  split <;> rfl

theorem roundPack_neg (s : Bool) (n c : Nat) :
    roundPack (!s) n c = (roundPack s n c).neg := by
  unfold roundPack
  exact pack_neg _ _

theorem roundPack_cases (s : Bool) (n c : Nat) :
    (∃ e f, roundPack s n c = .num s e f) ∨ roundPack s n c = .inf s := by
  unfold roundPack
  exact pack_cases _ _

theorem Float64.neg_neg (x : Float64) : x.neg.neg = x := by
  cases x <;> simp [Float64.neg]

theorem xor_not_left (a b : Bool) : xor (!a) b = !(xor a b) := by
  cases a <;> cases b <;> rfl

theorem xor_not_right (a b : Bool) : xor a (!b) = !(xor a b) := by
  cases a <;> cases b <;> rfl

/-- A sign flip of the first factor flips the sign of a product that is no
NaN. -/
theorem Float64.mul_neg_left (x y : Float64) (hn : (x.mul y).isNaN = false) :
    x.neg.mul y = (x.mul y).neg := by
  cases x with
  | nan s => simp [Float64.mul, Float64.isNaN] at hn
  | inf s =>
    cases y with
    | nan t => simp [Float64.mul, Float64.isNaN] at hn
    | inf t => simp only [Float64.neg, Float64.mul, xor_not_left]
    | num t g h =>
      by_cases h0 : sig g.val h.val = 0
      · simp [Float64.mul, Float64.isNaN, h0] at hn
      · simp only [Float64.neg, Float64.mul, xor_not_left, h0, if_false]
  | num s e f =>
    cases y with
    | nan t => simp [Float64.mul, Float64.isNaN] at hn
    | inf t =>
      by_cases h0 : sig e.val f.val = 0
      · simp [Float64.mul, Float64.isNaN, h0] at hn
      · simp only [Float64.neg, Float64.mul, xor_not_left, h0, if_false]
    | num t g h =>
      simp only [Float64.neg, Float64.mul, xor_not_left, roundPack_neg]

/-- A sign flip of the second factor flips the sign of a product that is no
NaN. -/
theorem Float64.mul_neg_right (x y : Float64) (hn : (x.mul y).isNaN = false) :
    x.mul y.neg = (x.mul y).neg := by
  cases x with
  | nan s => simp [Float64.mul, Float64.isNaN] at hn
  | inf s =>
    cases y with
    | nan t => simp [Float64.mul, Float64.isNaN] at hn
    | inf t => simp only [Float64.neg, Float64.mul, xor_not_right]
    | num t g h =>
      by_cases h0 : sig g.val h.val = 0
      · simp [Float64.mul, Float64.isNaN, h0] at hn
      · simp only [Float64.neg, Float64.mul, xor_not_right, h0, if_false]
  | num s e f =>
    cases y with
    | nan t => simp [Float64.mul, Float64.isNaN] at hn
    | inf t =>
      by_cases h0 : sig e.val f.val = 0
      · simp [Float64.mul, Float64.isNaN, h0] at hn
      · simp only [Float64.neg, Float64.mul, xor_not_right, h0, if_false]
    | num t g h =>
      simp only [Float64.neg, Float64.mul, xor_not_right, roundPack_neg]

theorem Float64.isNaN_neg (x : Float64) : x.neg.isNaN = x.isNaN := by
  cases x <;> rfl

/-! ### Exact products -/

theorem signed_prod_cancel (a b c D : ℚ) (ha : 0 ≤ a * b) (hc : 0 ≤ c * D) (hD : 0 < D)
    (s t u : Bool)
    (h : (if u then -1 else 1) * c / D
      = (if s then -1 else 1) * a / D * ((if t then -1 else 1) * b / D)) :
    a * b = c * D := by
  have hD0 : D ≠ 0 := ne_of_gt hD
  cases s <;> cases t <;> cases u <;> simp at h <;> field_simp at h <;> nlinarith

theorem signed_prod_eq (a b c D : ℚ) (hD : 0 < D) (s t : Bool) (h : a * b = c * D) :
    (if xor s t then -1 else 1) * c / D
      = (if s then -1 else 1) * a / D * ((if t then -1 else 1) * b / D) := by
  have hD0 : D ≠ 0 := ne_of_gt hD
  cases s <;> cases t <;> simp <;> field_simp <;> nlinarith

/-! ### The value of a rounded result -/

/-- The product of two finite values is exact whenever the exact product is
the value of a `float64`. -/
theorem Float64.mul_exact (x y z : Float64) (hx : x.isFinite = true) (hy : y.isFinite = true)
    (hz : z.isFinite = true) (h : z.toRat = x.toRat * y.toRat) :
    (x.mul y).isFinite = true ∧ (x.mul y).toRat = x.toRat * y.toRat := by
  cases x with
  | nan s => simp [Float64.isFinite] at hx
  | inf s => simp [Float64.isFinite] at hx
  | num s e f =>
    cases y with
    | nan s => simp [Float64.isFinite] at hy
    | inf s => simp [Float64.isFinite] at hy
    | num t g k =>
      cases z with
      | nan s => simp [Float64.isFinite] at hz
      | inf s => simp [Float64.isFinite] at hz
      | num u i j =>
        simp only [Float64.toRat] at h
        have hD : (0 : ℚ) < 2 ^ 1074 := pow_pos (by norm_num) _
        have hq : (sig e.val f.val : ℚ) * (sig g.val k.val : ℚ) = (sig i.val j.val : ℚ) * 2 ^ 1074 :=
          signed_prod_cancel _ _ _ _ (mul_nonneg (Nat.cast_nonneg _) (Nat.cast_nonneg _))
            (mul_nonneg (Nat.cast_nonneg _) hD.le) hD s t u h
        have hnat : sig e.val f.val * sig g.val k.val = sig i.val j.val * 2 ^ 1074 := by
          have h2 : ((sig e.val f.val * sig g.val k.val : ℕ) : ℚ)
              = ((sig i.val j.val * 2 ^ 1074 : ℕ) : ℚ) := by
            rw [Nat.cast_mul, Nat.cast_mul, Nat.cast_pow]
            exact hq
          exact Nat.cast_injective h2
        have hm : (Float64.num s e f).mul (Float64.num t g k) = .num (xor s t) i j := by
          simp only [Float64.mul]
          rw [hnat]
          exact roundPack_sig (xor s t) i.val j.val 1074 i.isLt j.isLt
        rw [hm]
        exact ⟨rfl, signed_prod_eq _ _ _ _ hD s t hq⟩

theorem roundShift_ge (n k : Nat) : n / 2 ^ k ≤ roundShift n k := by
  unfold roundShift
  simp only
  split <;> omega

theorem roundShift_le (n k : Nat) : roundShift n k ≤ n / 2 ^ k + 1 := by
  unfold roundShift
  simp only
  split <;> omega

/-- The rounded significand is within half a unit of the exact quotient. -/
theorem roundShift_near (n k : Nat) :
    2 * (roundShift n k * 2 ^ k) ≤ 2 * n + 2 ^ k ∧ 2 * n ≤ 2 * (roundShift n k * 2 ^ k) + 2 ^ k := by
  have hdm := Nat.div_add_mod n (2 ^ k)
  have hml := Nat.mod_lt n (show 0 < 2 ^ k from Nat.pow_pos (by norm_num))
  unfold roundShift
  simp only
  generalize n / 2 ^ k = q at hdm ⊢
  generalize n % 2 ^ k = r at hdm hml ⊢
  generalize (2 : Nat) ^ k = B at hdm hml ⊢
  have hc : B * q = q * B := Nat.mul_comm _ _
  split
  · rename_i h
    rw [Nat.add_mul]
    rcases h with h | ⟨h, _⟩ <;> omega
  · rename_i h
    have h1 : ¬ B < 2 * r := fun hh => h (Or.inl hh)
    omega

/-- A tie is rounded to the even significand. -/
theorem roundShift_tie (n k : Nat) (h : 2 * (n % 2 ^ k) = 2 ^ k) : roundShift n k % 2 = 0 := by
  unfold roundShift
  simp only
  split
  · rename_i h1
    rcases h1 with h1 | ⟨_, h1⟩ <;> omega
  · rename_i h1
    have : ¬ (n / 2 ^ k % 2 = 1) := fun hh => h1 (Or.inr ⟨h, hh⟩)
    omega

theorem pack_overflow (s : Bool) (enc : Nat) (h : 2047 * 2 ^ 52 ≤ enc) : pack s enc = .inf s := by
  unfold pack
  rw [dif_neg]
  have : 2047 ≤ enc / 2 ^ 52 := (Nat.le_div_iff_mul_le (Nat.pow_pos (by norm_num))).mpr h
  omega

/-- Decoding a packed significand: `mant * 2^j` units of `2^-1074`. -/
theorem pack_sig (s : Bool) (j mant : Nat) (h1 : mant ≤ 2 ^ 53) (h2 : 0 < j → 2 ^ 52 ≤ mant) :
    pack s (j * 2 ^ 52 + mant) = .inf s ∨
    ∃ e f, pack s (j * 2 ^ 52 + mant) = .num s e f ∧ sig e.val f.val = mant * 2 ^ j ∧
      e.val * 2 ^ 52 + f.val = j * 2 ^ 52 + mant := by
  by_cases hov : j * 2 ^ 52 + mant < 2047 * 2 ^ 52
  swap
  · exact Or.inl (pack_overflow s _ (by omega))
  right
  by_cases ha : mant < 2 ^ 52
  · have hj : j = 0 := by
      by_contra hj
      have := h2 (Nat.pos_of_ne_zero hj)
      omega
    subst hj
    refine ⟨⟨0, by norm_num⟩, ⟨mant, ha⟩, ?_, ?_, rfl⟩
    · exact pack_eq s 0 mant (by norm_num) ha
    · simp [sig]
  · by_cases hb : mant < 2 ^ 53
    · have heq : j * 2 ^ 52 + mant = (j + 1) * 2 ^ 52 + (mant - 2 ^ 52) := by
        rw [Nat.add_mul]; omega
      have hj : j + 1 < 2047 := by
        by_contra hcon
        have : 2047 * 2 ^ 52 ≤ (j + 1) * 2 ^ 52 := Nat.mul_le_mul_right _ (by omega)
        omega
      refine ⟨⟨j + 1, hj⟩, ⟨mant - 2 ^ 52, by omega⟩, ?_, ?_, heq.symm⟩
      · exact (congrArg (pack s) heq).trans (pack_eq s (j + 1) (mant - 2 ^ 52) hj (by omega))
      · have : 2 ^ 52 + (mant - 2 ^ 52) = mant := by omega
        simp only [sig]
        rw [if_neg (Nat.succ_ne_zero j), this, Nat.add_sub_cancel]
    · have hm : mant = 2 ^ 53 := by omega
      subst hm
      have heq : j * 2 ^ 52 + 2 ^ 53 = (j + 2) * 2 ^ 52 + 0 := by
        rw [Nat.add_mul]; norm_num
      have hj : j + 2 < 2047 := by
        by_contra hcon
        have : 2047 * 2 ^ 52 ≤ (j + 2) * 2 ^ 52 := Nat.mul_le_mul_right _ (by omega)
        omega
      refine ⟨⟨j + 2, hj⟩, ⟨0, by norm_num⟩, ?_, ?_, heq.symm⟩
      · exact (congrArg (pack s) heq).trans (pack_eq s (j + 2) 0 hj (by norm_num))
      · simp only [sig]
        rw [if_neg (by omega)]
        have : j + 2 - 1 = j + 1 := by omega
        rw [this, pow_succ]
        ring

/-- The quotient left by the rounding position has at most 53 bits. -/
theorem quot_lt (n c : Nat) : n / 2 ^ max (bitLen n - 53) c < 2 ^ 53 := by
  have hb := bitLen_lt n
  have hle : bitLen n ≤ max (bitLen n - 53) c + 53 := by omega
  have h2 : 2 ^ bitLen n ≤ 2 ^ (max (bitLen n - 53) c + 53) := Nat.pow_le_pow_right (by norm_num) hle
  rw [Nat.div_lt_iff_lt_mul (Nat.pow_pos (by norm_num)), ← pow_add, Nat.add_comm]
  omega

/-- Above the smallest exponent the quotient has exactly 53 bits. -/
theorem quot_ge (n c : Nat) (h : c < max (bitLen n - 53) c) :
    2 ^ 52 ≤ n / 2 ^ max (bitLen n - 53) c := by
  have hk : max (bitLen n - 53) c = bitLen n - 53 := by omega
  have hn0 : n ≠ 0 := by
    rintro rfl
    rw [bitLen_zero] at h
    omega
  have hb := bitLen_le n hn0
  rw [hk, Nat.le_div_iff_mul_le (Nat.pow_pos (by norm_num)), ← pow_add]
  have h3 : bitLen n = 52 + (bitLen n - 53) + 1 := by omega
  rw [h3, pow_succ] at hb
  omega

/-- The value of a rounded result: the rounded significand at the rounding
position. -/
theorem roundPack_value (s : Bool) (n c : Nat) :
    roundPack s n (1074 + c) = .inf s ∨
    ∃ e f, roundPack s n (1074 + c) = .num s e f ∧
      sig e.val f.val
        = roundShift n (max (bitLen n - 53) c) * 2 ^ (max (bitLen n - 53) c - c) := by
  have hc : 1074 + c - 1074 = c := by omega
  have h1 : roundShift n (max (bitLen n - 53) c) ≤ 2 ^ 53 := by
    have := roundShift_le n (max (bitLen n - 53) c)
    have := quot_lt n c
    omega
  have h2 : 0 < max (bitLen n - 53) c - c → 2 ^ 52 ≤ roundShift n (max (bitLen n - 53) c) := by
    intro hj
    have := roundShift_ge n (max (bitLen n - 53) c)
    have := quot_ge n c (by omega)
    omega
  unfold roundPack
  simp only [hc]
  rcases pack_sig s _ _ h1 h2 with h | ⟨e, f, h, hs, _⟩
  · exact Or.inl h
  · exact Or.inr ⟨e, f, h, hs⟩

/-- A value of at least `2^a` units is not rounded below `2^a` units. -/
theorem roundPack_ge_pow (s : Bool) (n c a : Nat) (h : 2 ^ (c + a) ≤ n) :
    roundPack s n (1074 + c) = .inf s ∨
    ∃ e f, roundPack s n (1074 + c) = .num s e f ∧ 2 ^ a ≤ sig e.val f.val := by
  rcases roundPack_value s n c with hv | ⟨e, f, hv, hs⟩
  · exact Or.inl hv
  · refine Or.inr ⟨e, f, hv, ?_⟩
    rw [hs]
    have hge := roundShift_ge n (max (bitLen n - 53) c)
    by_cases hK : max (bitLen n - 53) c ≤ c + a
    · have hq : 2 ^ (c + a - max (bitLen n - 53) c) ≤ n / 2 ^ max (bitLen n - 53) c := by
        rw [Nat.le_div_iff_mul_le (Nat.pow_pos (by norm_num)), ← pow_add]
        have : c + a - max (bitLen n - 53) c + max (bitLen n - 53) c = c + a := by omega
        rw [this]
        exact h
      have ha : a = (c + a - max (bitLen n - 53) c) + (max (bitLen n - 53) c - c) := by omega
      calc 2 ^ a = 2 ^ (c + a - max (bitLen n - 53) c) * 2 ^ (max (bitLen n - 53) c - c) := by
            rw [← pow_add, ← ha]
        _ ≤ roundShift n (max (bitLen n - 53) c) * 2 ^ (max (bitLen n - 53) c - c) :=
            Nat.mul_le_mul_right _ (le_trans hq hge)
    · have hq := quot_ge n c (by omega)
      have hp : 2 ^ a ≤ 2 ^ (max (bitLen n - 53) c - c) := Nat.pow_le_pow_right (by norm_num) (by omega)
      calc 2 ^ a ≤ 1 * 2 ^ (max (bitLen n - 53) c - c) := by rw [Nat.one_mul]; exact hp
        _ ≤ roundShift n (max (bitLen n - 53) c) * 2 ^ (max (bitLen n - 53) c - c) :=
            Nat.mul_le_mul_right _ (by omega)

/-! ### The order of `float64` and the area for a negative radius -/

set_option maxRecDepth 100000 in
set_option exponentiation.threshold 10000 in
theorem piApprox_eq : piApprox = .num false ⟨1024, by decide⟩ ⟨2570632149304942, by decide⟩ := by
  decide

theorem sig_pi_ge : 2 ^ 1075 ≤ sig 1024 2570632149304942 := by
  unfold sig
  rw [if_neg (by norm_num)]
  have : 1024 - 1 = 1023 := rfl
  calc 2 ^ 1075 = 2 ^ 52 * 2 ^ 1023 := by rw [← pow_add]
    _ ≤ (2 ^ 52 + 2570632149304942) * 2 ^ (1024 - 1) := by
        rw [this]; exact Nat.mul_le_mul_right _ (by omega)

theorem sig_eq_zero_iff (e f : Nat) : sig e f = 0 ↔ e * 2 ^ 52 + f = 0 := by
  unfold sig
  by_cases h : e = 0
  · subst h; simp
  · rw [if_neg h]
    have h1 : 0 < (2 ^ 52 + f) * 2 ^ (e - 1) :=
      Nat.mul_pos (by omega) (Nat.pow_pos (by norm_num))
    have h2 : 0 < e * 2 ^ 52 := Nat.mul_pos (Nat.pos_of_ne_zero h) (by norm_num)
    omega

theorem lt_zero_cases (x : Float64) (h : x.lt Float64.zero = true) :
    x = .inf true ∨ ∃ e f, x = .num true e f ∧ sig e.val f.val ≠ 0 := by
  cases x with
  | nan s => simp [Float64.lt, Float64.isNaN] at h
  | inf s =>
    cases s
    · simp [Float64.lt, Float64.isNaN, Float64.key, Float64.zero] at h
    · exact Or.inl rfl
  | num s e f =>
    cases s
    · simp only [Float64.lt, Float64.isNaN, Float64.key, Float64.zero] at h
      simp at h
      omega
    · refine Or.inr ⟨e, f, rfl, ?_⟩
      simp only [Float64.lt, Float64.isNaN, Float64.key, Float64.zero] at h
      simp at h
      rw [Ne, sig_eq_zero_iff]
      omega

theorem zero_le_num (e : Fin 2047) (f : Fin (2 ^ 52)) :
    Float64.zero.le (.num false e f) = true := by
  simp [Float64.le, Float64.isNaN, Float64.key, Float64.zero]
  omega

theorem zero_le_inf : Float64.zero.le (.inf false) = true := by
  simp [Float64.le, Float64.isNaN, Float64.key, Float64.zero]

theorem zero_lt_num (e : Fin 2047) (f : Fin (2 ^ 52)) (h : sig e.val f.val ≠ 0) :
    Float64.zero.lt (.num false e f) = true := by
  rw [Ne, sig_eq_zero_iff] at h
  simp [Float64.lt, Float64.isNaN, Float64.key, Float64.zero]
  omega

theorem zero_lt_inf : Float64.zero.lt (.inf false) = true := by
  simp [Float64.lt, Float64.isNaN, Float64.key, Float64.zero]

set_option maxRecDepth 100000 in
set_option exponentiation.threshold 10000 in
theorem const_pow_537 :
    constFloat64 1 (2 ^ 537) = .num false ⟨486, by decide⟩ ⟨0, by decide⟩ := by
  decide

theorem sig_pi_ne : sig 1024 2570632149304942 ≠ 0 := by
  have := sig_pi_ge
  have : 0 < 2 ^ 1075 := Nat.pow_pos (by norm_num)
  omega

theorem le_neg_pow_537 (e : Fin 2047) (f : Fin (2 ^ 52))
    (h : (Float64.num true e f).le (Float64.num true ⟨486, by decide⟩ ⟨0, by decide⟩) = true) :
    2 ^ 537 ≤ sig e.val f.val := by
  simp only [Float64.le, Float64.isNaN, Float64.key] at h
  simp at h
  have he : 486 ≤ e.val := by
    by_contra hcon
    have h1 : e.val + 1 ≤ 486 := by omega
    have h2 : (e.val + 1) * 2 ^ 52 ≤ 486 * 2 ^ 52 := Nat.mul_le_mul_right _ h1
    have h3 := f.isLt
    rw [Nat.add_mul] at h2
    omega
  unfold sig
  rw [if_neg (by omega)]
  have h4 : 2 ^ 485 ≤ 2 ^ (e.val - 1) := Nat.pow_le_pow_right (by norm_num) (by omega)
  calc 2 ^ 537 = 2 ^ 52 * 2 ^ 485 := by rw [← pow_add]
    _ ≤ (2 ^ 52 + f.val) * 2 ^ (e.val - 1) := Nat.mul_le_mul (by omega) h4

/-- The area of a circle of finite negative radius: never below zero, and above
zero when the radius is at least `2^-537` in magnitude. -/
theorem area_of_neg_num (e : Fin 2047) (f : Fin (2 ^ 52)) (hs : sig e.val f.val ≠ 0) :
    Float64.zero.le (Circle.Area ⟨.num true e f⟩) = true ∧
    (2 ^ 537 ≤ sig e.val f.val → Float64.zero.lt (Circle.Area ⟨.num true e f⟩) = true) := by
  unfold Circle.Area
  rw [piApprox_eq]
  simp only [Float64.mul, Bool.false_xor]
  have hc : (2148 : Nat) = 1074 + 1074 := by norm_num
  rw [hc]
  constructor
  · rcases roundPack_cases true (sig 1024 2570632149304942 * sig e.val f.val) (1074 + 1074)
      with ⟨e1, f1, h1⟩ | h1
    · rw [h1]
      simp only [Float64.mul, Bool.xor_self]
      rcases roundPack_cases false (sig e1.val f1.val * sig e.val f.val) 2148 with ⟨e2, f2, h2⟩ | h2
      · rw [h2]; exact zero_le_num e2 f2
      · rw [h2]; exact zero_le_inf
    · rw [h1]
      simp only [Float64.mul, Bool.xor_self, if_neg hs]
      exact zero_le_inf
  · intro hr
    have hn1 : 2 ^ (1074 + 538) ≤ sig 1024 2570632149304942 * sig e.val f.val := by
      calc 2 ^ (1074 + 538) = 2 ^ 1075 * 2 ^ 537 := by rw [← pow_add]
        _ ≤ sig 1024 2570632149304942 * sig e.val f.val := Nat.mul_le_mul sig_pi_ge hr
    rcases roundPack_ge_pow true _ 1074 538 hn1 with h1 | ⟨e1, f1, h1, hs1⟩
    · rw [h1]
      simp only [Float64.mul, Bool.xor_self, if_neg hs]
      exact zero_lt_inf
    · rw [h1]
      simp only [Float64.mul, Bool.xor_self]
      have hn2 : 2 ^ (1074 + 1) ≤ sig e1.val f1.val * sig e.val f.val := by
        calc 2 ^ (1074 + 1) = 2 ^ 538 * 2 ^ 537 := by rw [← pow_add]
          _ ≤ sig e1.val f1.val * sig e.val f.val := Nat.mul_le_mul hs1 hr
      rcases roundPack_ge_pow false _ 1074 1 hn2 with h2 | ⟨e2, f2, h2, hs2⟩
      · rw [h2]; exact zero_lt_inf
      · rw [h2]
        exact zero_lt_num e2 f2 (by omega)

/-! ## Lemmas on formatting -/

theorem area_of_neg_inf : Circle.Area ⟨.inf true⟩ = .inf false := by
  unfold Circle.Area
  rw [piApprox_eq]
  simp only [Float64.mul, Bool.false_xor, if_neg sig_pi_ne, Bool.xor_self]

theorem digitByte_zero : digitByte 0 = '0' := rfl

theorem numeral_of_lt (u : Nat) (h : u < 10) : numeral u = [digitByte u] := by
  unfold numeral
  by_cases h0 : u = 0
  · subst h0; rfl
  · rw [if_neg h0, Nat.digits_of_lt 10 u h0 h]
    rfl

theorem numeral_of_ge (u : Nat) (h : 10 ≤ u) :
    numeral u = numeral (u / 10) ++ [digitByte (u % 10)] := by
  have h0 : u ≠ 0 := by omega
  have h1 : u / 10 ≠ 0 := by omega
  unfold numeral
  rw [if_neg h0, if_neg h1, Nat.digits_def' (by norm_num) (by omega)]
  simp

/-- With enough fuel the digit loop writes the numeral. -/
theorem appendDigits_eq (fuel : Nat) : ∀ (u : Nat) (acc : List Char), u < 10 ^ (fuel + 1) →
    appendDigits (fuel + 1) u acc = numeral u ++ acc := by
  induction fuel with
  | zero =>
    intro u acc h
    have h10 : u < 10 := by simpa using h
    simp [appendDigits, h10, numeral_of_lt u h10]
  | succ fuel ih =>
    intro u acc h
    unfold appendDigits
    by_cases h10 : u < 10
    · simp [h10, numeral_of_lt u h10]
    · rw [if_neg h10]
      have hlt : u / 10 < 10 ^ (fuel + 1) := by
        rw [Nat.div_lt_iff_lt_mul (by norm_num)]
        rw [pow_succ] at h
        exact h
      rw [ih (u / 10) _ hlt, numeral_of_ge u (by omega)]
      simp

theorem decimal_eq (n : Nat) : decimal n = numeral n := by
  unfold decimal
  have h : n < 10 ^ (n + 1) :=
    lt_of_lt_of_le (Nat.lt_pow_self (by norm_num) n) (Nat.pow_le_pow_right (by norm_num) (by omega))
  rw [appendDigits_eq n n [] h, List.append_nil]

theorem fmtInteger_eq (n : Int) (h1 : -2 ^ 63 ≤ n) (h2 : n < 2 ^ 63) :
    fmtInteger n = String.mk ((if n < 0 then ['-'] else []) ++ numeral n.natAbs) := by
  unfold fmtInteger
  simp only
  by_cases hn : n < 0
  · have hu : 2 ^ 63 ≤ (n % 2 ^ 64).toNat := by omega
    have hv : (2 ^ 64 - (n % 2 ^ 64).toNat) % 2 ^ 64 = n.natAbs := by omega
    have hlt : n.natAbs < 10 ^ (19 + 1) := by omega
    simp only [hu, decide_True, if_true, hv, hn]
    rw [appendDigits_eq 19 _ _ hlt]
    simp
  · have hu : ¬ (2 ^ 63 ≤ n.natAbs) := by omega
    have hv : (n % 2 ^ 64).toNat = n.natAbs := by omega
    have hlt : n.natAbs < 10 ^ (19 + 1) := by omega
    simp only [hu, decide_False, hv, hn, Bool.false_eq_true, if_false]
    rw [appendDigits_eq 19 _ _ hlt]
    simp

theorem roundShift_tie_even (n k : Nat)
    (h : 2 * (roundShift n k * 2 ^ k) = 2 * n + 2 ^ k ∨ 2 * n = 2 * (roundShift n k * 2 ^ k) + 2 ^ k) :
    roundShift n k % 2 = 0 := by
  apply roundShift_tie
  have hdm := Nat.div_add_mod n (2 ^ k)
  have hml := Nat.mod_lt n (show 0 < 2 ^ k from Nat.pow_pos (by norm_num))
  have hge := roundShift_ge n k
  have hle := roundShift_le n k
  generalize roundShift n k = N at h hge hle
  generalize n / 2 ^ k = q at hdm hge hle
  generalize n % 2 ^ k = r at hdm hml ⊢
  generalize (2 : Nat) ^ k = B at hdm hml h ⊢
  have hc : B * q = q * B := Nat.mul_comm _ _
  have hN : N = q ∨ N = q + 1 := by omega
  rcases hN with rfl | rfl
  · omega
  · rw [Nat.add_mul] at h
    omega

theorem near_rat (N n D : ℕ) (hD : 0 < D) (h1 : 2 * (N * D) ≤ 2 * n + D)
    (h2 : 2 * n ≤ 2 * (N * D) + D) : |(N : ℚ) - (n : ℚ) / D| ≤ 1 / 2 := by
  have hD' : (0 : ℚ) < D := by exact_mod_cast hD
  have e1 : (2 : ℚ) * (N * D) ≤ 2 * n + D := by exact_mod_cast h1
  have e2 : (2 : ℚ) * n ≤ 2 * (N * D) + D := by exact_mod_cast h2
  have hx : (n : ℚ) / D * D = n := div_mul_cancel₀ _ (ne_of_gt hD')
  generalize (n : ℚ) / D = x at hx ⊢
  rw [abs_le]
  constructor
  · by_contra hc
    push_neg at hc
    have := mul_lt_mul_of_pos_right hc hD'
    nlinarith
  · by_contra hc
    push_neg at hc
    have := mul_lt_mul_of_pos_right hc hD'
    nlinarith

theorem tie_rat (N n D : ℕ) (hD : 0 < D) (h : |(N : ℚ) - (n : ℚ) / D| = 1 / 2) :
    2 * (N * D) = 2 * n + D ∨ 2 * n = 2 * (N * D) + D := by
  have hD' : (0 : ℚ) < D := by exact_mod_cast hD
  have hD0 : (D : ℚ) ≠ 0 := ne_of_gt hD'
  rcases abs_eq (by norm_num : (0 : ℚ) ≤ 1 / 2) |>.mp h with h | h
  · left
    have : (2 : ℚ) * (N * D) = 2 * n + D := by
      field_simp at h
      linarith
    exact_mod_cast this
  · right
    have : (2 : ℚ) * n = 2 * (N * D) + D := by
      field_simp at h
      linarith
    exact_mod_cast this

theorem fracDigits_two (n : Nat) :
    fracDigits 2 (n % 100) [] = [digitByte (n / 10 % 10), digitByte (n % 10)] := by
  have h1 : n % 100 / 10 % 10 = n / 10 % 10 := by omega
  have h2 : n % 100 % 10 = n % 10 := by omega
  simp [fracDigits, h1, h2]

theorem abs_toRat (s : Bool) (e : Fin 2047) (f : Fin (2 ^ 52)) :
    |(Float64.num s e f).toRat| = (sig e.val f.val : ℚ) / 2 ^ 1074 := by
  have hD : (0 : ℚ) < 2 ^ 1074 := pow_pos (by norm_num) _
  have ha : (0 : ℚ) ≤ (sig e.val f.val : ℚ) / 2 ^ 1074 := div_nonneg (Nat.cast_nonneg _) hD.le
  simp only [Float64.toRat]
  cases s
  · simp only [Bool.false_eq_true, if_false, one_mul]
    exact abs_of_nonneg ha
  · simp only [if_true, neg_mul, one_mul, neg_div, abs_neg]
    exact abs_of_nonneg ha

theorem formatF_two (s : Bool) (e : Fin 2047) (f : Fin (2 ^ 52)) :
    formatF 2 (.num s e f) = signText s ++ String.mk
      (numeral (roundShift (sig e.val f.val * 100) 1074 / 100) ++
        ['.', digitByte (roundShift (sig e.val f.val * 100) 1074 / 10 % 10),
          digitByte (roundShift (sig e.val f.val * 100) 1074 % 10)]) := by
  have h100 : (10 : Nat) ^ 2 = 100 := by norm_num
  simp only [formatF, h100, decimal_eq, fracDigits_two]
  simp

/-- The two-digit rendering of a finite value: the nearest multiple of `0.01`,
a tie going to the even one. -/
theorem formatF_two_spec (x : Float64) (h : x.isFinite = true) :
    ∃ N : Nat, abs ((N : ℚ) - 100 * abs x.toRat) ≤ 1 / 2 ∧
      (abs ((N : ℚ) - 100 * abs x.toRat) = 1 / 2 → N % 2 = 0) ∧
      formatF 2 x = (if x.signBit then "-" else "") ++ String.mk
        (numeral (N / 100) ++ ['.', digitByte (N / 10 % 10), digitByte (N % 10)]) := by
  cases x with
  | nan s => simp [Float64.isFinite] at h
  | inf s => simp [Float64.isFinite] at h
  | num s e f =>
    have hD : 0 < 2 ^ 1074 := Nat.pow_pos (by norm_num)
    have hval : 100 * abs (Float64.num s e f).toRat
        = ((sig e.val f.val * 100 : ℕ) : ℚ) / ((2 ^ 1074 : ℕ) : ℚ) := by
      rw [abs_toRat, Nat.cast_mul, Nat.cast_pow]
      push_cast
      ring
    refine ⟨roundShift (sig e.val f.val * 100) 1074, ?_, ?_, ?_⟩
    · rw [hval]
      have hn := roundShift_near (sig e.val f.val * 100) 1074
      exact near_rat _ _ _ hD hn.1 hn.2
    · rw [hval]
      intro ht
      exact roundShift_tie_even _ _ (tie_rat _ _ _ hD ht)
    · rw [formatF_two]
      rfl

/-! ## The programs on their inputs -/

set_option maxRecDepth 100000 in
set_option exponentiation.threshold 10000 in
theorem circle_ten_line :
    formatF 2 (Shape.circle ⟨constFloat64 10 1⟩).Area = "314.16" := by
  decide

set_option maxRecDepth 100000 in
set_option exponentiation.threshold 10000 in
theorem rectangle_line :
    formatF 2 (Shape.rectangle ⟨constFloat64 5 1, constFloat64 6 1⟩).Area = "30.00" := by
  decide

set_option maxRecDepth 100000 in
set_option exponentiation.threshold 10000 in
theorem float_line : formatG (constFloat64 11 10) = "1.1" := by
  decide

set_option maxRecDepth 100000 in
set_option exponentiation.threshold 10000 in
theorem int_line : fmtInteger 55 = "55" := by
  decide

theorem toRat_mul_of_sig (e g i : Fin 2047) (f k j : Fin (2 ^ 52))
    (h : sig e.val f.val * sig g.val k.val = sig i.val j.val * 2 ^ 1074) :
    (Float64.num false i j).toRat = (Float64.num false e f).toRat * (Float64.num false g k).toRat := by
  have hD : (0 : ℚ) < 2 ^ 1074 := pow_pos (by norm_num) _
  have h2 : ((sig e.val f.val * sig g.val k.val : ℕ) : ℚ)
      = ((sig i.val j.val * 2 ^ 1074 : ℕ) : ℚ) := congrArg _ h
  rw [Nat.cast_mul, Nat.cast_mul, Nat.cast_pow] at h2
  exact signed_prod_eq _ _ _ _ hD false false h2

theorem utf8ByteSize_append_eq (a b : String) :
    (a ++ b).utf8ByteSize = a.utf8ByteSize + b.utf8ByteSize := by
  obtain ⟨la⟩ := a
  obtain ⟨lb⟩ := b
  show String.utf8ByteSize ⟨la ++ lb⟩ = _
  simp only [String.utf8ByteSize_mk, String.utf8Len_append]

/-! ## The accuracy of a product and of the area -/

/-- Correct rounding: a finite result is within half a unit at the rounding
position of the exact value. -/
theorem roundPack_near (s t : Bool) (n c : Nat) (e : Fin 2047) (f : Fin (2 ^ 52))
    (h : roundPack s n (1074 + c) = .num t e f) :
    2 * (sig e.val f.val * 2 ^ c) ≤ 2 * n + 2 ^ max (bitLen n - 53) c ∧
    2 * n ≤ 2 * (sig e.val f.val * 2 ^ c) + 2 ^ max (bitLen n - 53) c := by
  rcases roundPack_value s n c with hv | ⟨e1, f1, hv, hs⟩
  · rw [hv] at h
    exact absurd h (by simp)
  · rw [hv] at h
    injection h with _ he hf
    subst he hf
    have hk : max (bitLen n - 53) c - c + c = max (bitLen n - 53) c := by omega
    have hm : sig e1.val f1.val * 2 ^ c
        = roundShift n (max (bitLen n - 53) c) * 2 ^ max (bitLen n - 53) c := by
      rw [hs, Nat.mul_assoc, ← pow_add, hk]
    rw [hm]
    exact roundShift_near n _

/-- In the normal range the unit at the rounding position is at most
`2^-52` of the value. -/
theorem unit_le (n c : Nat) (h : 2 ^ (c + 52) ≤ n) :
    2 ^ max (bitLen n - 53) c * 2 ^ 52 ≤ n := by
  have hn0 : n ≠ 0 := by
    have : 0 < 2 ^ (c + 52) := Nat.pow_pos (by norm_num)
    omega
  have hb : c + 53 ≤ bitLen n := by
    by_contra hcon
    have h1 : bitLen n ≤ c + 52 := by omega
    have h2 : 2 ^ bitLen n ≤ 2 ^ (c + 52) := Nat.pow_le_pow_right (by norm_num) h1
    have := bitLen_lt n
    omega
  have hk : max (bitLen n - 53) c = bitLen n - 53 := by omega
  have h3 := bitLen_le n hn0
  have h4 : bitLen n = (bitLen n - 53) + 52 + 1 := by omega
  rw [hk, ← pow_add]
  rw [h4, pow_succ] at h3
  omega

/-- Relative accuracy of a finite rounded result in the normal range. -/
theorem roundPack_rel (s t : Bool) (n c : Nat) (e : Fin 2047) (f : Fin (2 ^ 52))
    (h : roundPack s n (1074 + c) = .num t e f) (hn : 2 ^ (c + 52) ≤ n) :
    2 ^ 53 * (sig e.val f.val * 2 ^ c) ≤ 2 ^ 53 * n + n ∧
    2 ^ 53 * n ≤ 2 ^ 53 * (sig e.val f.val * 2 ^ c) + n := by
  obtain ⟨h1, h2⟩ := roundPack_near s t n c e f h
  have h3 := unit_le n c hn
  generalize sig e.val f.val * 2 ^ c = v at h1 h2 ⊢
  generalize (2 : Nat) ^ max (bitLen n - 53) c = U at h1 h2 h3
  omega

theorem rel_of_scaled (w p K : ℚ) (hK : 0 < K)
    (h1 : 2 ^ 53 * (w * K) ≤ 2 ^ 53 * (p * K) + p * K)
    (h2 : 2 ^ 53 * (p * K) ≤ 2 ^ 53 * (w * K) + p * K) :
    abs (w - p) ≤ p / 2 ^ 53 := by
  have e1 : 2 ^ 53 * w ≤ 2 ^ 53 * p + p := by
    by_contra hc
    push_neg at hc
    have := mul_lt_mul_of_pos_right hc hK
    nlinarith
  have e2 : 2 ^ 53 * p ≤ 2 ^ 53 * w + p := by
    by_contra hc
    push_neg at hc
    have := mul_lt_mul_of_pos_right hc hK
    nlinarith
  have hq : p / 2 ^ 53 * 2 ^ 53 = p := div_mul_cancel₀ _ (by norm_num)
  generalize p / 2 ^ 53 = q at hq ⊢
  rw [abs_le]
  constructor <;> linarith

/-- Three roundings of relative size `u` change the product `c0 * R^2` by at
most `4 * u` of it. -/
theorem three_roundings (R C T A c0 u : ℚ) (hR : 0 ≤ R) (hc0 : 0 ≤ c0) (hu : 0 ≤ u)
    (hu4 : u ≤ 1 / 4) (h1 : abs (T - C * R) ≤ C * R * u) (h2 : abs (A - T * R) ≤ T * R * u)
    (h3 : abs (C - c0) ≤ c0 * u) : abs (A - c0 * R ^ 2) ≤ c0 * R ^ 2 * (4 * u) := by
  rw [abs_le] at h1 h2 h3 ⊢
  obtain ⟨h1l, h1u⟩ := h1
  obtain ⟨h2l, h2u⟩ := h2
  obtain ⟨h3l, h3u⟩ := h3
  have hC0 : 0 ≤ C := by nlinarith
  have hCu : C ≤ c0 * (1 + u) := by linarith
  have hCl : c0 * (1 - u) ≤ C := by linarith
  have hCR : 0 ≤ C * R := mul_nonneg hC0 hR
  have hTu : T ≤ C * R * (1 + u) := by linarith
  have hTl : C * R * (1 - u) ≤ T := by linarith
  have hT0 : 0 ≤ T := by nlinarith
  have hTR : 0 ≤ T * R := mul_nonneg hT0 hR
  have hAu : A ≤ T * R * (1 + u) := by linarith
  have hAl : T * R * (1 - u) ≤ A := by linarith
  have hR2 : 0 ≤ R * R := mul_nonneg hR hR
  have hcR : 0 ≤ c0 * (R * R) := mul_nonneg hc0 hR2
  have hu1 : 0 ≤ 1 - u := by linarith
  have hu2 : 0 ≤ 1 + u := by linarith
  -- upper chain
  have a1 : C * R ≤ c0 * (1 + u) * R := mul_le_mul_of_nonneg_right hCu hR
  have a2 : T ≤ c0 * (1 + u) * R * (1 + u) := le_trans hTu (mul_le_mul_of_nonneg_right a1 hu2)
  have a3 : T * R ≤ c0 * (1 + u) * R * (1 + u) * R := mul_le_mul_of_nonneg_right a2 hR
  have a4 : A ≤ c0 * (1 + u) * R * (1 + u) * R * (1 + u) :=
    le_trans hAu (mul_le_mul_of_nonneg_right a3 hu2)
  -- lower chain
  have b1 : c0 * (1 - u) * R ≤ C * R := mul_le_mul_of_nonneg_right hCl hR
  have b2 : c0 * (1 - u) * R * (1 - u) ≤ T := le_trans (mul_le_mul_of_nonneg_right b1 hu1) hTl
  have b3 : c0 * (1 - u) * R * (1 - u) * R ≤ T * R := mul_le_mul_of_nonneg_right b2 hR
  have b4 : c0 * (1 - u) * R * (1 - u) * R * (1 - u) ≤ A :=
    le_trans (mul_le_mul_of_nonneg_right b3 hu1) hAl
  have hu3 : u * u ≤ u * (1 / 4) := mul_le_mul_of_nonneg_left hu4 hu
  have hu0 : 0 ≤ u * u := mul_nonneg hu hu
  have hu5 : u * u * u ≤ u * u * (1 / 4) := mul_le_mul_of_nonneg_left hu4 hu0
  have up : (1 + u) * (1 + u) * (1 + u) ≤ 1 + 4 * u := by linarith
  have lo : 1 - 4 * u ≤ (1 - u) * (1 - u) * (1 - u) := by linarith
  have up2 := mul_le_mul_of_nonneg_left up hcR
  have lo2 := mul_le_mul_of_nonneg_left lo hcR
  constructor
  · have : c0 * (1 - u) * R * (1 - u) * R * (1 - u)
        = c0 * (R * R) * ((1 - u) * (1 - u) * (1 - u)) := by ring
    have hsq : c0 * R ^ 2 = c0 * (R * R) := by ring
    rw [hsq]
    linarith
  · have : c0 * (1 + u) * R * (1 + u) * R * (1 + u)
        = c0 * (R * R) * ((1 + u) * (1 + u) * (1 + u)) := by ring
    have hsq : c0 * R ^ 2 = c0 * (R * R) := by ring
    rw [hsq]
    linarith

theorem toRat_num_false (e : Fin 2047) (f : Fin (2 ^ 52)) :
    (Float64.num false e f).toRat = (sig e.val f.val : ℚ) / 2 ^ 1074 := by
  simp only [Float64.toRat, Bool.false_eq_true, if_false, one_mul]

/-- The relative accuracy of a product in rational form. -/
theorem rel_rat (v a b Dn : ℕ) (D : ℚ) (hD : 0 < D) (hDn : (Dn : ℚ) = D)
    (h1 : 2 ^ 53 * (v * Dn) ≤ 2 ^ 53 * (a * b) + a * b)
    (h2 : 2 ^ 53 * (a * b) ≤ 2 ^ 53 * (v * Dn) + a * b) :
    abs ((v : ℚ) / D - (a : ℚ) / D * ((b : ℚ) / D)) ≤ (a : ℚ) / D * ((b : ℚ) / D) * (1 / 2 ^ 53) := by
  have hD0 : D ≠ 0 := ne_of_gt hD
  have q1 : (2 : ℚ) ^ 53 * (v * D) ≤ 2 ^ 53 * (a * b) + a * b := by
    rw [← hDn]; exact_mod_cast h1
  have q2 : (2 : ℚ) ^ 53 * (a * b) ≤ 2 ^ 53 * (v * D) + a * b := by
    rw [← hDn]; exact_mod_cast h2
  have k1 : (v : ℚ) / D * (D * D) = v * D := by field_simp; ring
  have k2 : (a : ℚ) / D * ((b : ℚ) / D) * (D * D) = a * b := by field_simp
  have := rel_of_scaled ((v : ℚ) / D) ((a : ℚ) / D * ((b : ℚ) / D)) (D * D) (mul_pos hD hD)
    (by rw [k1, k2]; exact q1) (by rw [k1, k2]; exact q2)
  rw [mul_one_div]
  exact this

set_option maxRecDepth 100000 in
set_option exponentiation.threshold 10000 in
theorem piApprox_near :
    2 ^ 53 * (sig 1024 2570632149304942 * 100000) ≤ 2 ^ 53 * (314159 * 2 ^ 1074) + 314159 * 2 ^ 1074 ∧
    2 ^ 53 * (314159 * 2 ^ 1074) ≤ 2 ^ 53 * (sig 1024 2570632149304942 * 100000) + 314159 * 2 ^ 1074 := by
  decide

/-- The constant of `Circle.Area` is within `2^-53` of `3.14159`. -/
theorem piApprox_rel :
    abs ((sig 1024 2570632149304942 : ℚ) / 2 ^ 1074 - 314159 / 100000)
      ≤ 314159 / 100000 * (1 / 2 ^ 53) := by
  obtain ⟨h1, h2⟩ := piApprox_near
  have hDq : ((2 ^ 1074 : ℕ) : ℚ) = 2 ^ 1074 := by rw [Nat.cast_pow]; rfl
  have hD : (0 : ℚ) < 2 ^ 1074 := pow_pos (by norm_num) _
  generalize (2 : ℕ) ^ 1074 = Dn at h1 h2 hDq
  generalize (2 : ℚ) ^ 1074 = D at hDq hD ⊢
  generalize sig 1024 2570632149304942 = m at h1 h2 ⊢
  have hD0 : D ≠ 0 := ne_of_gt hD
  have q1 : (2 : ℚ) ^ 53 * (m * 100000) ≤ 2 ^ 53 * (314159 * D) + 314159 * D := by
    rw [← hDq]; exact_mod_cast h1
  have q2 : (2 : ℚ) ^ 53 * (314159 * D) ≤ 2 ^ 53 * (m * 100000) + 314159 * D := by
    rw [← hDq]; exact_mod_cast h2
  have k1 : (m : ℚ) / D * (D * 100000) = m * 100000 := by field_simp; ring
  have k2 : (314159 : ℚ) / 100000 * (D * 100000) = 314159 * D := by field_simp; ring
  have := rel_of_scaled ((m : ℚ) / D) (314159 / 100000) (D * 100000) (by positivity)
    (by rw [k1, k2]; exact q1) (by rw [k1, k2]; exact q2)
  rw [mul_one_div]
  exact this

set_option maxRecDepth 100000 in
set_option exponentiation.threshold 10000 in
theorem const_pow_511 :
    constFloat64 1 (2 ^ 511) = .num false ⟨512, by decide⟩ ⟨0, by decide⟩ := by
  decide

theorem ge_pow_511_cases (x : Float64)
    (h : (Float64.num false ⟨512, by decide⟩ ⟨0, by decide⟩).le x = true) :
    x = .inf false ∨ ∃ e f, x = .num false e f ∧ 2 ^ 563 ≤ sig e.val f.val := by
  cases x with
  | nan s => simp [Float64.le, Float64.isNaN] at h
  | inf s =>
    cases s
    · exact Or.inl rfl
    · simp [Float64.le, Float64.isNaN, Float64.key] at h
  | num s e f =>
    cases s
    · refine Or.inr ⟨e, f, rfl, ?_⟩
      simp only [Float64.le, Float64.isNaN, Float64.key] at h
      simp at h
      have he : 512 ≤ e.val := by
        by_contra hcon
        have h1 : e.val + 1 ≤ 512 := by omega
        have h2 : (e.val + 1) * 2 ^ 52 ≤ 512 * 2 ^ 52 := Nat.mul_le_mul_right _ h1
        have h3 := f.isLt
        rw [Nat.add_mul] at h2
        omega
      unfold sig
      rw [if_neg (by omega)]
      have h4 : 2 ^ 511 ≤ 2 ^ (e.val - 1) := Nat.pow_le_pow_right (by norm_num) (by omega)
      calc 2 ^ 563 = 2 ^ 52 * 2 ^ 511 := by rw [← pow_add]
        _ ≤ (2 ^ 52 + f.val) * 2 ^ (e.val - 1) := Nat.mul_le_mul (by omega) h4
    · simp only [Float64.le, Float64.isNaN, Float64.key] at h
      simp at h
      omega

theorem area_of_pos_inf : Circle.Area ⟨.inf false⟩ = .inf false := by
  unfold Circle.Area
  rw [piApprox_eq]
  simp only [Float64.mul, Bool.false_xor, if_neg sig_pi_ne, Bool.xor_self]

/-- The accuracy of the area of a circle whose radius is at least `2^-511`
when no product overflows: three roundings of relative size `2^-53`. -/
theorem area_accuracy_num (e : Fin 2047) (f : Fin (2 ^ 52)) (hr : 2 ^ 563 ≤ sig e.val f.val)
    (hfin : (Circle.Area ⟨.num false e f⟩).isFinite = true) :
    abs ((Circle.Area ⟨.num false e f⟩).toRat
        - 314159 / 100000 * (Float64.num false e f).toRat ^ 2)
      ≤ 314159 / 100000 * (Float64.num false e f).toRat ^ 2 * (4 * (1 / 2 ^ 53)) := by
  have hs : sig e.val f.val ≠ 0 := by
    have : 0 < 2 ^ 563 := Nat.pow_pos (by norm_num)
    omega
  unfold Circle.Area at hfin ⊢
  rw [piApprox_eq] at hfin ⊢
  simp only [Float64.mul, Bool.false_xor] at hfin ⊢
  have hc : (2148 : Nat) = 1074 + 1074 := by norm_num
  rw [hc] at hfin ⊢
  have hn1 : 2 ^ (1074 + 564) ≤ sig 1024 2570632149304942 * sig e.val f.val := by
    calc 2 ^ (1074 + 564) = 2 ^ 1075 * 2 ^ 563 := by rw [← pow_add]
      _ ≤ sig 1024 2570632149304942 * sig e.val f.val := Nat.mul_le_mul sig_pi_ge hr
  have hn1' : 2 ^ (1074 + 52) ≤ sig 1024 2570632149304942 * sig e.val f.val :=
    le_trans (Nat.pow_le_pow_right (by norm_num) (by norm_num)) hn1
  rcases roundPack_ge_pow false _ 1074 564 hn1 with h1 | ⟨e1, f1, h1, hs1⟩
  · rw [h1] at hfin
    simp [Float64.mul, hs, Float64.isFinite] at hfin
  · rw [h1] at hfin ⊢
    simp only [Float64.mul, Bool.xor_self] at hfin ⊢
    have hn2 : 2 ^ (1074 + 52) ≤ sig e1.val f1.val * sig e.val f.val := by
      calc 2 ^ (1074 + 52) ≤ 2 ^ 564 * 2 ^ 563 := by
            rw [← pow_add]; exact Nat.pow_le_pow_right (by norm_num) (by norm_num)
        _ ≤ sig e1.val f1.val * sig e.val f.val := Nat.mul_le_mul hs1 hr
    rcases roundPack_cases false (sig e1.val f1.val * sig e.val f.val) (1074 + 1074)
      with ⟨e2, f2, h2⟩ | h2
    · rw [h2]
      obtain ⟨a1, a2⟩ := roundPack_rel false false _ 1074 e1 f1 h1 hn1'
      obtain ⟨b1, b2⟩ := roundPack_rel false false _ 1074 e2 f2 h2 hn2
      rw [toRat_num_false, toRat_num_false]
      have hDq : ((2 ^ 1074 : ℕ) : ℚ) = 2 ^ 1074 := by rw [Nat.cast_pow]; rfl
      have hD : (0 : ℚ) < 2 ^ 1074 := pow_pos (by norm_num) _
      have hpi := piApprox_rel
      generalize (2 : ℕ) ^ 1074 = Dn at a1 a2 b1 b2 hDq
      generalize (2 : ℚ) ^ 1074 = D at hDq hD hpi ⊢
      have t1 := rel_rat _ _ _ Dn D hD hDq a1 a2
      have t2 := rel_rat _ _ _ Dn D hD hDq b1 b2
      exact three_roundings _ _ _ _ _ _ (div_nonneg (Nat.cast_nonneg _) hD.le) (by norm_num)
        (by norm_num) (by norm_num) t1 t2 hpi
    · rw [h2] at hfin
      simp [Float64.isFinite] at hfin

theorem roundPack_zero (s : Bool) : roundPack s 0 (1074 + 1074) = .num s ⟨0, by decide⟩ ⟨0, by decide⟩ := by
  have h := roundPack_sig s 0 0 1074 (by decide) (by decide)
  have h0 : sig 0 0 * 2 ^ 1074 = 0 := by simp [sig]
  rw [h0] at h
  exact h

/-- The product of the constant of `Circle.Area` and a radius is a NaN only for
a NaN radius. -/
theorem prod_pi_not_nan (r : Float64) (h : r.isNaN = false) : (piApprox.mul r).isNaN = false := by
  rw [piApprox_eq]
  cases r with
  | nan s => simp [Float64.isNaN] at h
  | inf s => simp only [Float64.mul, if_neg sig_pi_ne]; rfl
  | num s e f =>
    simp only [Float64.mul]
    rcases roundPack_cases (xor false s) (sig 1024 2570632149304942 * sig e.val f.val) 2148
      with ⟨e1, f1, h1⟩ | h1 <;> rw [h1] <;> rfl

/-- The area of a circle is a NaN only for a NaN radius. -/
theorem area_not_nan (r : Float64) (h : r.isNaN = false) : (Circle.Area ⟨r⟩).isNaN = false := by
  cases r with
  | nan s => simp [Float64.isNaN] at h
  | inf s =>
    cases s
    · rw [area_of_pos_inf]; rfl
    · rw [area_of_neg_inf]; rfl
  | num s e f =>
    unfold Circle.Area
    rw [piApprox_eq]
    simp only [Float64.mul, Bool.false_xor]
    have hc : (2148 : Nat) = 1074 + 1074 := by norm_num
    rw [hc]
    by_cases hs : sig e.val f.val = 0
    · rw [hs, Nat.mul_zero, roundPack_zero]
      simp only [Float64.mul, hs, Nat.mul_zero]
      rcases roundPack_cases (xor s s) 0 2148 with ⟨e2, f2, h2⟩ | h2 <;> rw [h2] <;> rfl
    · rcases roundPack_cases s (sig 1024 2570632149304942 * sig e.val f.val) (1074 + 1074)
        with ⟨e1, f1, h1⟩ | h1
      · rw [h1]
        simp only [Float64.mul]
        rcases roundPack_cases (xor s s) (sig e1.val f1.val * sig e.val f.val) 2148
          with ⟨e2, f2, h2⟩ | h2 <;> rw [h2] <;> rfl
      · rw [h1]
        simp only [Float64.mul, if_neg hs]
        rfl

/-- The area of a circle whose radius is no NaN does not change when the sign
of the radius is flipped. -/
theorem area_neg (r : Float64) (h : r.isNaN = false) : Circle.Area ⟨r.neg⟩ = Circle.Area ⟨r⟩ := by
  have h1 := prod_pi_not_nan r h
  have h2 : ((piApprox.mul r).mul r).isNaN = false := area_not_nan r h
  have h3 : ((piApprox.mul r).mul r.neg).isNaN = false := by
    rw [Float64.mul_neg_right _ _ h2, Float64.isNaN_neg]
    exact h2
  unfold Circle.Area
  simp only
  rw [Float64.mul_neg_right _ _ h1, Float64.mul_neg_left _ _ h3, Float64.mul_neg_right _ _ h2,
    Float64.neg_neg]

/-- The area of a circle with a NaN radius is that NaN, sign bit included. -/
theorem area_nan (s : Bool) : Circle.Area ⟨.nan s⟩ = .nan s := by
  unfold Circle.Area
  rw [piApprox_eq]
  rfl

/-! ## The claims -/

set_option maxRecDepth 100000 in
set_option exponentiation.threshold 10000 in
/-- C1: the area of a circle is the `float64` product `(3.14159 * r) * r`, taken
from the left, for every radius (so for every `r ≥ 0`); for radius `10` it is
the `float64` `314.159` and for radius `0` it is `0`; and it equals
`3.14159 · r²` to the precision of `float64`: for a radius `r ≥ 2^-511` whose
area does not overflow the area differs from the real number `3.14159 · r²` by
at most `2^-51` of it (three roundings of at most `2^-53` each). -/
theorem circle_area_formula :
    (∀ c : Circle, c.Area = ((constFloat64 314159 100000).mul c.Radius).mul c.Radius) ∧
    Circle.Area ⟨constFloat64 10 1⟩ = constFloat64 314159 1000 ∧
    Circle.Area ⟨constFloat64 0 1⟩ = Float64.zero ∧
    (∀ c : Circle, (constFloat64 1 (2 ^ 511)).le c.Radius = true → c.Area.isFinite = true →
      abs (c.Area.toRat - 314159 / 100000 * c.Radius.toRat ^ 2)
        ≤ 314159 / 100000 * c.Radius.toRat ^ 2 / 2 ^ 51) := by
  refine ⟨fun c => rfl, by decide, by decide, ?_⟩
  rintro ⟨r⟩ hle hfin
  rw [const_pow_511] at hle
  have h4 : (4 : ℚ) * (1 / 2 ^ 53) = 1 / 2 ^ 51 := by norm_num
  rcases ge_pow_511_cases r hle with rfl | ⟨e, f, rfl, hr⟩
  · rw [area_of_pos_inf] at hfin
    simp [Float64.isFinite] at hfin
  · have h := area_accuracy_num e f hr hfin
    rw [h4, mul_one_div] at h
    exact h

set_option maxRecDepth 100000 in
set_option exponentiation.threshold 10000 in
/-- Witness of C1 at the circle of radius `10` of the program: the radius is at
least `2^-511` and the area is finite. -/
theorem circle_area_formula_witness :
    (constFloat64 1 (2 ^ 511)).le (Circle.mk (constFloat64 10 1)).Radius = true ∧
    (Circle.mk (constFloat64 10 1)).Area.isFinite = true ∧
    abs ((Circle.mk (constFloat64 10 1)).Area.toRat
        - 314159 / 100000 * (Circle.mk (constFloat64 10 1)).Radius.toRat ^ 2)
      ≤ 314159 / 100000 * (Circle.mk (constFloat64 10 1)).Radius.toRat ^ 2 / 2 ^ 51 :=
  ⟨by decide, by decide, circle_area_formula.2.2.2 _ (by decide) (by decide)⟩

set_option maxRecDepth 100000 in
set_option exponentiation.threshold 10000 in
/-- C2: the area of a rectangle is the `float64` product `w * h`; whenever the
exact product of two finite sides is the value of a `float64` (as it is for
integer-valued sides with a representable product) the area is finite and is
that exact product, with no rounding; for `5` by `6` it is exactly `30`. -/
theorem rectangle_area_exact (r : Rectangle) :
    r.Area = r.Width.mul r.Height ∧
    (∀ z : Float64, r.Width.isFinite = true → r.Height.isFinite = true → z.isFinite = true →
      z.toRat = r.Width.toRat * r.Height.toRat →
      r.Area.isFinite = true ∧ r.Area.toRat = r.Width.toRat * r.Height.toRat) ∧
    Rectangle.Area ⟨constFloat64 5 1, constFloat64 6 1⟩ = constFloat64 30 1 := by
  refine ⟨rfl, fun z hw hh hz h => ?_, ?_⟩
  · exact Float64.mul_exact r.Width r.Height z hw hh hz h
  · decide

set_option maxRecDepth 100000 in
set_option exponentiation.threshold 10000 in
/-- Witness of C2 at the rectangle `5` by `6` of the program, whose exact
product `30` is a `float64`. -/
theorem rectangle_area_exact_witness :
    (Rectangle.mk (.num false ⟨1025, by decide⟩ ⟨1125899906842624, by decide⟩)
      (.num false ⟨1025, by decide⟩ ⟨2251799813685248, by decide⟩)).Area.isFinite = true ∧
    (Rectangle.mk (.num false ⟨1025, by decide⟩ ⟨1125899906842624, by decide⟩)
      (.num false ⟨1025, by decide⟩ ⟨2251799813685248, by decide⟩)).Area.toRat
      = (Float64.num false ⟨1025, by decide⟩ ⟨1125899906842624, by decide⟩).toRat
        * (Float64.num false ⟨1025, by decide⟩ ⟨2251799813685248, by decide⟩).toRat :=
  (rectangle_area_exact _).2.1 (.num false ⟨1027, by decide⟩ ⟨3940649673949184, by decide⟩)
    rfl rfl rfl (toRat_mul_of_sig _ _ _ _ _ _ (by decide))

set_option maxRecDepth 100000 in
set_option exponentiation.threshold 10000 in
/-- C3, the claim as stated fails: the area of `Rectangle{Width: 0.25, Height:
0.5}` is exactly `0.125` (`2^1074 / 8` units of `2^-1074`), a tie between `0.12`
and `0.13`, and `printArea` writes `Area: 0.12`, the even neighbour, not the
`Area: 0.13` of rounding half away from zero. -/
theorem printArea_tie_not_away_from_zero :
    (Shape.rectangle ⟨constFloat64 1 4, constFloat64 1 2⟩).Area
      = .num false ⟨1020, by decide⟩ ⟨0, by decide⟩ ∧
    8 * sig 1020 0 = 2 ^ 1074 ∧
    printArea (.rectangle ⟨constFloat64 1 4, constFloat64 1 2⟩) "" = "Area: 0.12\n" ∧
    printArea (.rectangle ⟨constFloat64 1 4, constFloat64 1 2⟩) "" ≠ "Area: 0.13\n" := by
  refine ⟨by decide, by decide, by decide, by decide⟩

/-- C3 as amended: for every shape with a finite area `printArea` appends
`Area: `, the area in decimal with exactly two digits after the point, and one
newline, where the number `N / 100` written is the multiple of `0.01` nearest
to the magnitude of the area, a tie going to the even `N`, and a `-` stands in
front when the sign bit of the area is set. -/
theorem printArea_two_digits (s : Shape) (out : String) (h : s.Area.isFinite = true) :
    ∃ N : Nat, abs ((N : ℚ) - 100 * abs s.Area.toRat) ≤ 1 / 2 ∧
      (abs ((N : ℚ) - 100 * abs s.Area.toRat) = 1 / 2 → N % 2 = 0) ∧
      printArea s out = out ++ ("Area: " ++ ((if s.Area.signBit then "-" else "") ++ String.mk
        (numeral (N / 100) ++ ['.', digitByte (N / 10 % 10), digitByte (N % 10)])) ++ "\n") := by
  obtain ⟨N, h1, h2, h3⟩ := formatF_two_spec s.Area h
  exact ⟨N, h1, h2, by rw [printArea, h3]⟩

set_option maxRecDepth 100000 in
set_option exponentiation.threshold 10000 in
/-- Witness of the amended C3 at `Rectangle{Width: 0.25, Height: 0.5}`, whose
area is finite. -/
theorem printArea_two_digits_witness :
    (Shape.rectangle ⟨constFloat64 1 4, constFloat64 1 2⟩).Area.isFinite = true ∧
    ∃ N : Nat,
      abs ((N : ℚ) - 100 * abs (Shape.rectangle ⟨constFloat64 1 4, constFloat64 1 2⟩).Area.toRat)
        ≤ 1 / 2 ∧
      (abs ((N : ℚ) - 100 * abs (Shape.rectangle ⟨constFloat64 1 4, constFloat64 1 2⟩).Area.toRat)
        = 1 / 2 → N % 2 = 0) ∧
      printArea (.rectangle ⟨constFloat64 1 4, constFloat64 1 2⟩) "" = "" ++ ("Area: " ++
        ((if (Shape.rectangle ⟨constFloat64 1 4, constFloat64 1 2⟩).Area.signBit then "-" else "")
          ++ String.mk (numeral (N / 100) ++ ['.', digitByte (N / 10 % 10), digitByte (N % 10)]))
        ++ "\n") :=
  ⟨by decide, printArea_two_digits _ "" (by decide)⟩

/-- C4: started on an empty standard output, the `main` of the Shape program
leaves exactly the two lines `Area: 314.16` and `Area: 30.00`, in this order;
started on any output it appends exactly these two lines. -/
theorem shapeMain_output :
    shapeMain "" = "Area: 314.16\nArea: 30.00\n" ∧
    ∀ out : String, shapeMain out = out ++ "Area: 314.16\nArea: 30.00\n" := by
  have key : ∀ out : String, shapeMain out = out ++ "Area: 314.16\nArea: 30.00\n" := by
    intro out
    simp only [shapeMain, printArea, circle_ten_line, rectangle_line]
    rw [String.append_assoc]
    rfl
  exact ⟨key "", key⟩

/-- C5: started on an empty standard output, the `main` of the Generic program
leaves exactly the three lines `String`, `55` and `1.1`, in this order; started
on any output it appends exactly these three lines; the memory of the program
is left as it was. -/
theorem genericMain_output {μ : Type} (m : μ) :
    genericMain ⟨"", m⟩ = ⟨"String\n55\n1.1\n", m⟩ ∧
    ∀ w : World μ, genericMain w = ⟨w.out ++ "String\n55\n1.1\n", w.mem⟩ := by
  have key : ∀ w : World μ, genericMain w = ⟨w.out ++ "String\n55\n1.1\n", w.mem⟩ := by
    intro w
    simp only [genericMain, PrintValue, formatV]
    rw [float_line, int_line, String.append_assoc, String.append_assoc]
    rfl
  exact ⟨key ⟨"", m⟩, key⟩

set_option maxRecDepth 100000 in
set_option exponentiation.threshold 10000 in
/-- C6, the claim as stated fails: for the negative radius `-1e-200` the
product underflows and the area is `+0`, which is not above zero. -/
theorem circle_area_underflow :
    (Circle.mk (constFloat64 1 (10 ^ 200)).neg).Radius.lt Float64.zero = true ∧
    (Circle.mk (constFloat64 1 (10 ^ 200)).neg).Area = Float64.zero ∧
    Float64.zero.lt (Circle.mk (constFloat64 1 (10 ^ 200)).neg).Area = false := by
  refine ⟨by decide, by decide, by decide⟩

/-- C6 as amended: for every circle with a negative radius `r < 0` the area is
not below zero and is no NaN (`0 <= Area()` holds), so the sign of the radius
is lost and no negative radius gives a negative area; the area is above zero
whenever `r <= -2^-537`, where the product cannot underflow. -/
theorem circle_area_nonneg (c : Circle) (h : c.Radius.lt Float64.zero = true) :
    Float64.zero.le c.Area = true ∧
    (c.Radius.le (constFloat64 1 (2 ^ 537)).neg = true → Float64.zero.lt c.Area = true) := by
  obtain ⟨r⟩ := c
  rcases lt_zero_cases r h with rfl | ⟨e, f, rfl, hs⟩
  · rw [area_of_neg_inf]
    exact ⟨zero_le_inf, fun _ => zero_lt_inf⟩
  · obtain ⟨h1, h2⟩ := area_of_neg_num e f hs
    refine ⟨h1, fun hle => h2 ?_⟩
    rw [const_pow_537] at hle
    exact le_neg_pow_537 e f hle

set_option maxRecDepth 100000 in
set_option exponentiation.threshold 10000 in
/-- Witness of the amended C6 at the radius `-1`. -/
theorem circle_area_nonneg_witness :
    (Circle.mk (constFloat64 1 1).neg).Radius.lt Float64.zero = true ∧
    (Circle.mk (constFloat64 1 1).neg).Radius.le (constFloat64 1 (2 ^ 537)).neg = true ∧
    Float64.zero.le (Circle.mk (constFloat64 1 1).neg).Area = true ∧
    Float64.zero.lt (Circle.mk (constFloat64 1 1).neg).Area = true :=
  ⟨by decide, by decide, (circle_area_nonneg _ (by decide)).1,
    (circle_area_nonneg _ (by decide)).2 (by decide)⟩

/-- C7: for every integer `n` of Go's 64-bit `int`, `PrintValue(n)` appends
exactly a `-` when `n` is negative, the base-10 digits of the magnitude of `n`
with no leading zero, and one newline, and leaves the memory as it was;
`PrintValue(55)` writes `55` and a newline. -/
theorem printValue_int {μ : Type} (n : Int) (w : World μ) (h1 : -2 ^ 63 ≤ n) (h2 : n < 2 ^ 63) :
    PrintValue (.int n) w
      = ⟨w.out ++ (String.mk ((if n < 0 then ['-'] else []) ++ numeral n.natAbs) ++ "\n"),
          w.mem⟩ ∧
    PrintValue (.int 55) (⟨"", w.mem⟩ : World μ) = ⟨"55\n", w.mem⟩ := by
  constructor
  · simp only [PrintValue, formatV]
    rw [fmtInteger_eq n h1 h2]
  · simp only [PrintValue, formatV]
    rw [int_line]
    rfl

/-- Witness of C7 at `n = -55`. -/
theorem printValue_int_witness :
    PrintValue (.int (-55)) (⟨"", 0⟩ : World Nat)
      = ⟨"" ++ (String.mk ((if (-55 : Int) < 0 then ['-'] else []) ++ numeral (-55 : Int).natAbs)
        ++ "\n"), 0⟩ ∧
    PrintValue (.int (-55)) (⟨"", 0⟩ : World Nat) = ⟨"-55\n", 0⟩ :=
  ⟨(printValue_int (-55) ⟨"", 0⟩ (by decide) (by decide)).1, by decide⟩

/-- C8: for every text `s`, `PrintValue(s)` appends exactly `s`, unchanged, and
one newline, so what it writes is one longer than `s` (in characters and in
bytes), and leaves the memory as it was; `PrintValue("String")` writes `String`
and a newline, `PrintValue("")` a newline alone. -/
theorem printValue_string {μ : Type} (s : String) (w : World μ) :
    PrintValue (.str s) w = ⟨w.out ++ s ++ "\n", w.mem⟩ ∧
    (PrintValue (.str s) (⟨"", w.mem⟩ : World μ)).out.length = s.length + 1 ∧
    (PrintValue (.str s) (⟨"", w.mem⟩ : World μ)).out.utf8ByteSize = s.utf8ByteSize + 1 ∧
    PrintValue (.str "String") (⟨"", w.mem⟩ : World μ) = ⟨"String\n", w.mem⟩ ∧
    PrintValue (.str "") (⟨"", w.mem⟩ : World μ) = ⟨"\n", w.mem⟩ := by
  refine ⟨?_, ?_, ?_, rfl, rfl⟩
  · simp only [PrintValue, formatV, String.append_assoc]
  · simp only [PrintValue, formatV]
    rw [String.length_append, String.length_append]
    have h0 : "".length = 0 := rfl
    have h1 : "\n".length = 1 := rfl
    omega
  · simp only [PrintValue, formatV]
    rw [utf8ByteSize_append_eq, utf8ByteSize_append_eq]
    have h0 : "".utf8ByteSize = 0 := rfl
    have h1 : "\n".utf8ByteSize = 1 := rfl
    omega

/-- C9, the claim as stated fails: `PrintValue[T any]` takes a value of any
type, and for a value with a method `String` `fmt.Println` writes what the
method returns.  For the value `counter`, whose method counts its calls, the
first call of `PrintValue` writes `0` and the second call, with the same
argument, writes `1`: no text fixed by the argument alone is what a call
appends. -/
theorem printValue_counter_differs :
    counter.hasMethod = true ∧
    PrintValue counter ⟨"", 0⟩ = ⟨"0\n", 1⟩ ∧
    PrintValue counter (PrintValue counter ⟨"", 0⟩) = ⟨"0\n1\n", 2⟩ ∧
    ¬ ∃ L : String, ∀ w : World Nat, (PrintValue counter w).out = w.out ++ L := by
  refine ⟨rfl, by decide, by decide, ?_⟩
  rintro ⟨L, hL⟩
  have h0 := hL ⟨"", 0⟩
  have h1 := hL ⟨"", 1⟩
  have e0 : (PrintValue counter ⟨"", 0⟩).out = "0\n" := by decide
  have e1 : (PrintValue counter ⟨"", 1⟩).out = "1\n" := by decide
  rw [e0] at h0
  rw [e1] at h1
  have h : "0\n" = "1\n" := h0.trans h1.symm
  exact absurd h (by decide)

/-- C9 as amended: `printArea` is deterministic and keeps no state for every
Shape of the program (a Circle or a Rectangle), and so is `PrintValue` for
every value of a type without methods that the program prints (`string`, `int`,
`float64`): a call appends one text fixed by the argument alone, whatever was
written before and whatever the memory holds, it leaves the memory as it was,
and two calls append that text twice. -/
theorem reporting_deterministic :
    (∀ s : Shape, ∃ L : String, L = "Area: " ++ formatF 2 s.Area ++ "\n" ∧
      ∀ out : String, printArea s out = out ++ L ∧ printArea s (printArea s out) = out ++ L ++ L) ∧
    (∀ (μ : Type) (v : Value μ), v.hasMethod = false →
      ∃ L : String, (∀ m : μ, formatV v m = (L, m)) ∧
        ∀ w : World μ, PrintValue v w = ⟨w.out ++ (L ++ "\n"), w.mem⟩ ∧
          PrintValue v (PrintValue v w) = ⟨w.out ++ (L ++ "\n") ++ (L ++ "\n"), w.mem⟩) := by
  constructor
  · intro s
    exact ⟨_, rfl, fun out => ⟨rfl, rfl⟩⟩
  · intro μ v hv
    cases v with
    | str s => exact ⟨s, fun m => rfl, fun w => ⟨rfl, rfl⟩⟩
    | int n => exact ⟨fmtInteger n, fun m => rfl, fun w => ⟨rfl, rfl⟩⟩
    | float x => exact ⟨formatG x, fun m => rfl, fun w => ⟨rfl, rfl⟩⟩
    | stringer f => simp [Value.hasMethod] at hv

/-- Witness of the amended C9 at the `int` value `55`, whose type has no
method. -/
theorem reporting_deterministic_witness :
    (Value.int 55 : Value Nat).hasMethod = false ∧
    ∃ L : String, (∀ m : Nat, formatV (Value.int 55 : Value Nat) m = (L, m)) ∧
      ∀ w : World Nat, PrintValue (.int 55) w = ⟨w.out ++ (L ++ "\n"), w.mem⟩ ∧
        PrintValue (.int 55) (PrintValue (.int 55) w)
          = ⟨w.out ++ (L ++ "\n") ++ (L ++ "\n"), w.mem⟩ :=
  ⟨rfl, reporting_deterministic.2 Nat (.int 55) rfl⟩

set_option maxRecDepth 100000 in
set_option exponentiation.threshold 10000 in
/-- C10, the claim as stated fails: for a NaN radius `r` the unary minus flips
the sign bit and both products keep it, so the areas of the circles of radius
`-r` and `r` are NaNs of different sign bit, and they do not compare equal with
Go's `==`, as no NaN does. -/
theorem circle_area_nan_radius :
    Circle.Area ⟨(Float64.nan false).neg⟩ = .nan true ∧
    Circle.Area ⟨.nan false⟩ = .nan false ∧
    Circle.Area ⟨(Float64.nan false).neg⟩ ≠ Circle.Area ⟨.nan false⟩ ∧
    (Circle.Area ⟨(Float64.nan false).neg⟩).eq (Circle.Area ⟨.nan false⟩) = false := by
  refine ⟨by decide, by decide, by decide, by decide⟩

/-- C10 as amended: the area of a circle does not depend on the sign of its
radius when the radius is no NaN: for every such radius `r` the circles of
radius `-r` and `r` have the same area, the same `float64`, which also compares
equal with Go's `==`; and for every radius `r`, a NaN included, `printArea`
writes the same line for a circle of radius `r` and one of radius `-r`. -/
theorem circle_area_sign_symmetric (r : Float64) (out : String) :
    (r.isNaN = false →
      Circle.Area ⟨r.neg⟩ = Circle.Area ⟨r⟩ ∧
      (Circle.Area ⟨r.neg⟩).eq (Circle.Area ⟨r⟩) = true) ∧
    printArea (.circle ⟨r.neg⟩) out = printArea (.circle ⟨r⟩) out := by
  constructor
  · intro hr
    have h := area_neg r hr
    refine ⟨h, ?_⟩
    rw [h]
    have hn := area_not_nan r hr
    simp [Float64.eq, hn]
  · cases r with
    | nan s =>
      simp only [printArea, Shape.Area, Float64.neg, area_nan]
      rfl
    | inf s =>
      have h := area_neg (.inf s) rfl
      simp only [printArea, Shape.Area, h]
    | num s e f =>
      have h := area_neg (.num s e f) rfl
      simp only [printArea, Shape.Area, h]

set_option maxRecDepth 100000 in
set_option exponentiation.threshold 10000 in
/-- Witness of the amended C10 at the radius `10`, which is no NaN. -/
theorem circle_area_sign_symmetric_witness :
    (constFloat64 10 1).isNaN = false ∧
    Circle.Area ⟨(constFloat64 10 1).neg⟩ = Circle.Area ⟨constFloat64 10 1⟩ ∧
    (Circle.Area ⟨(constFloat64 10 1).neg⟩).eq (Circle.Area ⟨constFloat64 10 1⟩) = true :=
  ⟨by decide, (circle_area_sign_symmetric (constFloat64 10 1) "").1 (by decide)⟩

end GoIntensive
